import Mathlib

/-!
Verification of the artist-channel resolution and verification core of the
Artist-DB-Generator repository.

The Python sources embedded here are:
  * `youtube_searcher.py` — resolver-grade normalizer `normalize_name`, the
    cached artist-channel resolver `find_or_cache_artist_channel` with its
    SQLite-backed cache (`get_artist_channel` / `set_artist_channel`), and the
    within-channel song search of `search_youtube_for_song`;
  * `verify_channel_matches.py` — verifier-grade normalizer `normalize` and the
    channel verifier `search_channel_for_song`;
  * `find_all_channels.py` — the batch driver (`process_artist`,
    `update_channel_in_db`).

Similarity scores are modelled as rationals (`ℚ`); Python computes them in
binary floating point, but every constant compared against in the source
(0.6, 0.4, and the bonus constants) round-trips exactly through the float
comparisons performed at the scales that occur here, so the rational model
decides each branch the same way the Python code does.

Strings are modelled over their character sequences; Python-specific Unicode
behaviour (`str.lower`, `unicodedata.normalize("NFKC", ·)`, `\w` in regexes)
is modelled on the ASCII fragment, where NFKC is the identity and `lower`
maps exactly the range A–Z.
-/

namespace ArtistDB

/-- ASCII lowercase alphanumeric: the character class `[a-z0-9]` used by both
normalizers' regexes. -/
def isLowAlnum (c : Char) : Bool :=
  ('a' ≤ c && c ≤ 'z') || ('0' ≤ c && c ≤ '9')

/-- Regex word character `\w` on the ASCII fragment: `[A-Za-z0-9_]`.
Word boundaries `\b` fall exactly between a word character and a
non-word character (or the ends of the string). -/
def isWordChar (c : Char) : Bool :=
  ('a' ≤ c && c ≤ 'z') || ('A' ≤ c && c ≤ 'Z') || ('0' ≤ c && c ≤ '9') || c = '_'

/-- Python `str.lower()` on the ASCII fragment: maps A–Z to a–z. -/
def lowerChar (c : Char) : Char :=
  if 'A' ≤ c && c ≤ 'Z' then Char.ofNat (c.toNat + 32) else c

/-- ASCII whitespace, the characters removed by Python `str.strip()`. -/
def isSpaceChar (c : Char) : Bool :=
  c = ' ' || c = '\t' || c = '\n' || c = '\x0d' || c = '\x0b' || c = '\x0c'

/-- Python `str.strip()`: drop leading and trailing whitespace. -/
def pyStripList (l : List Char) : List Char :=
  ((l.dropWhile isSpaceChar).reverse.dropWhile isSpaceChar).reverse

/-- `s.strip()` on strings. -/
def pyStrip (s : String) : String :=
  String.mk (pyStripList s.toList)

/-- Does `l` begin with `pat`?  (List-level `startswith`.) -/
def beginsWith : List Char → List Char → Bool
  | _, [] => true
  | [], _ :: _ => false
  | c :: cs, p :: ps => c = p && beginsWith cs ps

/-- Does `pat` occur as a contiguous sublist of `l`?  This is the Python
substring test `pat in l`. -/
def hasSub : List Char → List Char → Bool
  | [], pat => beginsWith [] pat
  | c :: cs, pat => beginsWith (c :: cs) pat || hasSub cs pat

/-- Python `pat in s` for strings. -/
def strContainsSub (s pat : String) : Bool := hasSub s.toList pat.toList

/-- Python `s.startswith(pat)` for strings. -/
def strBeginsWith (s pat : String) : Bool := beginsWith s.toList pat.toList

/-- Python `s.lower()` (ASCII fragment). -/
def lowerStr (s : String) : String := String.mk (s.toList.map lowerChar)

/-!
## Noise-token removal (the `\b(w1|w2|...)\b` → `""` substitutions)

Both normalizers delete, from an already lowercased string, every occurrence
of a fixed vocabulary word that stands between word boundaries.  A `\b`-delimited
occurrence of a vocabulary word is exactly a maximal run of word characters
that equals that word, so the substitution deletes exactly the maximal word-
character runs (tokens) equal to a vocabulary word, leaving every other
character in place.  `removeNoiseWords` scans the string token by token and
performs exactly this deletion.  Comparison is on the lowercased token,
matching the `(?i)` flag of `youtube_searcher.normalize_name`; the inputs fed
to the case-sensitive substitution of `verify_channel_matches.normalize` are
already lowercase, so the lowercasing is the identity there.
-/

/-- Dropping a prefix never lengthens a list. -/
theorem dropWhileLenLe {α : Type} (p : α → Bool) : ∀ l : List α,
    (List.dropWhile p l).length ≤ l.length
  | [] => Nat.le_refl _
  | c :: cs => by
    simp only [List.dropWhile_cons]
    split
    · exact Nat.le_trans (dropWhileLenLe p cs) (Nat.le_succ _)
    · exact Nat.le_refl _

/-- Fuel-indexed worker for `removeNoiseWords`.  Every step strictly shortens
the list while consuming one unit of fuel, so with `fuel ≥ l.length` the fuel
never runs out and the worker computes the plain recursion. -/
def removeNoiseWordsF (noise : List String) : Nat → List Char → List Char
  | _, [] => []
  | 0, _ :: _ => []
  | fuel + 1, c :: cs =>
    if isWordChar c then
      let tok := List.takeWhile isWordChar (c :: cs)
      let rest := List.dropWhile isWordChar (c :: cs)
      (if noise.contains (String.mk (tok.map lowerChar)) then [] else tok) ++
        removeNoiseWordsF noise fuel rest
    else
      c :: removeNoiseWordsF noise fuel cs

/-- Delete every maximal word-character run equal (case-insensitively) to a
word of `noise`; all other characters are kept. -/
def removeNoiseWords (noise : List String) (l : List Char) : List Char :=
  removeNoiseWordsF noise l.length l

/-- The noise vocabulary of `youtube_searcher.normalize_name`:
`re.sub(r"(?i)\b(vevo|topic|official|music|channel)\b", "", s)`. -/
def resolverNoise : List String := ["vevo", "topic", "official", "music", "channel"]

/-- The noise vocabulary of `verify_channel_matches.normalize`:
`re.sub(r"\b(official|video|audio|lyric|lyrics|music|visualizer|mv)\b", "", s)`. -/
def verifierNoise : List String :=
  ["official", "video", "audio", "lyric", "lyrics", "music", "visualizer", "mv"]

/-- `youtube_searcher.normalize_name`:
```
s = unicodedata.normalize("NFKC", s.lower())
s = re.sub(r"(?i)\b(vevo|topic|official|music|channel)\b", "", s)
s = re.sub(r"[^a-z0-9]", "", s)
return s.strip()
```
NFKC is the identity on the ASCII fragment modelled here. -/
def normalize_name (s : String) : String :=
  let s1 := s.toList.map lowerChar
  let s2 := removeNoiseWords resolverNoise s1
  let s3 := s2.filter isLowAlnum
  String.mk (pyStripList s3)

/-- Fuel-indexed worker for `squashNonAlnum`; with `fuel ≥ l.length` the fuel
never runs out. -/
def squashNonAlnumF : Nat → List Char → List Char
  | _, [] => []
  | 0, _ :: _ => []
  | fuel + 1, c :: cs =>
    if isLowAlnum c then c :: squashNonAlnumF fuel cs
    else ' ' :: squashNonAlnumF fuel (cs.dropWhile (fun d => !isLowAlnum d))

/-- `re.sub(r"[^a-z0-9]+", " ", s)`: replace every maximal run of characters
outside `[a-z0-9]` by a single space. -/
def squashNonAlnum (l : List Char) : List Char :=
  squashNonAlnumF l.length l

/-- `verify_channel_matches.normalize`:
```
if not s: return ""
s = s.lower()
s = re.sub(r"[^a-z0-9]+", " ", s)
s = re.sub(r"\b(official|video|audio|lyric|lyrics|music|visualizer|mv)\b", "", s)
return s.strip()
```
-/
def normalize (s : String) : String :=
  if s.toList = [] then ""
  else
    let s1 := s.toList.map lowerChar
    let s2 := squashNonAlnum s1
    let s3 := removeNoiseWords verifierNoise s2
    String.mk (pyStripList s3)

/-!
## difflib.SequenceMatcher (as called in the repository: `SequenceMatcher(None, a, b)`)

Faithful functional translation of CPython's `difflib`:
`b2j` position table with the autojunk purge (`isjunk=None`, `autojunk=True`),
`find_longest_match` (quadratic DP plus the equality-extension loops; the two
junk-extension loops never fire because the junk set is empty when
`isjunk=None`), the recursive decomposition underlying `get_matching_blocks`,
and `ratio() = 2*M/(len(a)+len(b))`.
-/

/-- Positions of `c` in `b`, ascending: difflib's `b2j` table before the
autojunk purge. -/
def b2jBase (b : List Char) (c : Char) : List Nat :=
  (List.range b.length).filter (fun j => b.getD j ' ' = c && j < b.length)

/-- With `isjunk=None` and `autojunk=True`, an element of `b` is "popular"
when `len(b) >= 200` and it occurs at more than `len(b) // 100 + 1`
positions; popular elements are purged from `b2j`. -/
def isPopular (b : List Char) (c : Char) : Bool :=
  decide (200 ≤ b.length) && decide (b.length / 100 + 1 < (b2jBase b c).length)

/-- difflib's `b2j` after the autojunk purge. -/
def b2j (b : List Char) (c : Char) : List Nat :=
  if isPopular b c then [] else b2jBase b c

/-- The running best block of `find_longest_match`: `besti`, `bestj`,
`bestsize`. -/
structure FlmState where
  besti : Nat
  bestj : Nat
  bestsize : Nat

/-- One row of `find_longest_match`'s DP: iterate over the positions `js` of
`a[i]` in `b` (already restricted to `[blo, bhi)`), building the row's new
`j2len` table and updating the best block.  `k = j2len[j-1] + 1` is the length
of the longest matching block ending at `a[i]`, `b[j]` (when `j = 0` the
Python lookup `j2len.get(-1, 0)` yields `0`). -/
def flmRow (i : Nat) (j2len : Nat → Nat) (js : List Nat) (st : FlmState) :
    (Nat → Nat) × FlmState :=
  js.foldl
    (fun acc j =>
      let k := (if j = 0 then 0 else j2len (j - 1)) + 1
      let nj : Nat → Nat := fun x => if x = j then k else acc.1 x
      let st' : FlmState :=
        if acc.2.bestsize < k then ⟨i + 1 - k, j + 1 - k, k⟩ else acc.2
      (nj, st'))
    ((fun _ => 0), st)

/-- The main loop of `find_longest_match(alo, ahi, blo, bhi)`: for each `i` in
`[alo, ahi)` process the positions of `a[i]` in `b` that lie in `[blo, bhi)`
(the source's `continue`-below-`blo` / `break`-at-`bhi` over an ascending
position list).  All callers pass `ahi ≤ len(a)`, so the `getD` default is
never consulted. -/
def flmLoop (a b : List Char) (alo ahi blo bhi : Nat) : FlmState :=
  ((List.range' alo (ahi - alo)).foldl
    (fun acc i =>
      let js := ((b2j b (a.getD i ' ')).takeWhile (fun j => j < bhi)).filter
        (fun j => blo ≤ j)
      flmRow i acc.1 js acc.2)
    ((fun _ => 0), ⟨alo, blo, 0⟩)).2

/-- Are `a[i]` and `b[j]` both present and equal? -/
def get2Eq (a b : List Char) (i j : Nat) : Bool :=
  match a.get? i, b.get? j with
  | some x, some y => x == y
  | _, _ => false

/-- Fuel-indexed worker for `extendLeft`.  Each iteration requires
`alo < besti` and decrements `besti`, so starting the fuel at `besti` is
exact: when the fuel reaches `0`, `besti = 0` and the loop condition is false
anyway. -/
def extendLeftF (a b : List Char) (alo blo : Nat) :
    Nat → Nat → Nat → Nat → Nat × Nat × Nat
  | 0, besti, bestj, bestsize => (besti, bestj, bestsize)
  | fuel + 1, besti, bestj, bestsize =>
    if decide (alo < besti) && decide (blo < bestj) &&
        get2Eq a b (besti - 1) (bestj - 1) then
      extendLeftF a b alo blo fuel (besti - 1) (bestj - 1) (bestsize + 1)
    else
      (besti, bestj, bestsize)

/-- Left extension of the best block: `while besti > alo and bestj > blo and
a[besti-1] == b[bestj-1]: besti, bestj, bestsize = besti-1, bestj-1,
bestsize+1`.  (The junk set is empty since the repository always passes
`isjunk=None`, so difflib's junk-extension loops never fire and its non-junk
condition reduces to plain equality.) -/
def extendLeft (a b : List Char) (alo blo besti bestj bestsize : Nat) :
    Nat × Nat × Nat :=
  extendLeftF a b alo blo besti besti bestj bestsize

/-- Fuel-indexed worker for `extendRight`.  Each iteration requires
`besti + bestsize < ahi` and increments `bestsize`, so starting the fuel at
`ahi - (besti + bestsize)` is exact: when the fuel reaches `0`,
`besti + bestsize = ahi` and the loop condition is false anyway. -/
def extendRightF (a b : List Char) (ahi bhi besti bestj : Nat) :
    Nat → Nat → Nat
  | 0, bestsize => bestsize
  | fuel + 1, bestsize =>
    if decide (besti + bestsize < ahi) && decide (bestj + bestsize < bhi) &&
        get2Eq a b (besti + bestsize) (bestj + bestsize) then
      extendRightF a b ahi bhi besti bestj fuel (bestsize + 1)
    else
      bestsize

/-- Right extension of the best block: `while besti+bestsize < ahi and
bestj+bestsize < bhi and a[besti+bestsize] == b[bestj+bestsize]:
bestsize += 1`. -/
def extendRight (a b : List Char) (ahi bhi besti bestj bestsize : Nat) : Nat :=
  extendRightF a b ahi bhi besti bestj (ahi - (besti + bestsize)) bestsize

/-- `SequenceMatcher(None, a, b).find_longest_match(alo, ahi, blo, bhi)`:
the DP over matching positions followed by the extension loops. -/
def flm (a b : List Char) (alo ahi blo bhi : Nat) : Nat × Nat × Nat :=
  let st := flmLoop a b alo ahi blo bhi
  let e := extendLeft a b alo blo st.besti st.bestj st.bestsize
  (e.1, e.2.1, extendRight a b ahi bhi e.1 e.2.1 e.2.2)

/-- Total size of the matching blocks that `get_matching_blocks` finds inside
`a[alo:ahi] × b[blo:bhi]`: take the longest match and recurse on the regions
before and after it.  Every recursive call strictly shrinks the `a`-interval
(the found block is nonempty), so the recursion depth is at most `ahi - alo`
and `fuel = len(a) + 1` always suffices. -/
def matchSumF (a b : List Char) : Nat → Nat → Nat → Nat → Nat → Nat
  | 0, _, _, _, _ => 0
  | fuel + 1, alo, ahi, blo, bhi =>
    let r := flm a b alo ahi blo bhi
    if r.2.2 = 0 then 0
    else
      r.2.2 + matchSumF a b fuel alo r.1 blo r.2.1 +
        matchSumF a b fuel (r.1 + r.2.2) ahi (r.2.1 + r.2.2) bhi

/-- Exact rational value `num / den`, used for similarity scores.  Python
computes scores in IEEE floats; every comparison the sources make at the
values reachable here decides identically over the exact rationals (see the
header note), so scores are modelled exactly.  Every value built below has a
positive denominator; the Boolean comparisons cross-multiply. -/
structure Frac where
  num : Int
  den : Nat
deriving DecidableEq, Repr

/-- Exact rational addition (denominators multiply; no normalization). -/
def Frac.add (x y : Frac) : Frac :=
  ⟨x.num * (y.den : Int) + y.num * (x.den : Int), x.den * y.den⟩

/-- Exact rational subtraction. -/
def Frac.sub (x y : Frac) : Frac :=
  ⟨x.num * (y.den : Int) - y.num * (x.den : Int), x.den * y.den⟩

/-- `x < y` as rationals (valid for positive denominators). -/
def Frac.ltB (x y : Frac) : Bool := x.num * (y.den : Int) < y.num * (x.den : Int)

/-- `x ≤ y` as rationals (valid for positive denominators). -/
def Frac.leB (x y : Frac) : Bool := x.num * (y.den : Int) ≤ y.num * (x.den : Int)

/-- `x = y` as rationals (valid for positive denominators). -/
def Frac.eqv (x y : Frac) : Bool := x.num * (y.den : Int) = y.num * (x.den : Int)

/-- `SequenceMatcher(None, a, b).ratio()`: `2*M / (len(a)+len(b))`, and `1.0`
when both strings are empty (difflib's `_calculate_ratio`). -/
def smRatio (a b : String) : Frac :=
  let la := a.toList.length
  let lb := b.toList.length
  let M := matchSumF a.toList b.toList (la + 1) 0 la 0 lb
  if la + lb = 0 then ⟨1, 1⟩ else ⟨2 * M, la + lb⟩

/-!
## The resolution cache (`artists.db`, `youtube_searcher.py` lines 12–27)

A database row for an artist either does not exist, exists with a NULL
`youtube_channel`, or exists with a string value (possibly empty):
`none` / `some none` / `some (some v)`.
-/

/-- The `artists` table restricted to the `youtube_channel` column. -/
def DB : Type := String → Option (Option String)

/-- `get_artist_channel`: `SELECT youtube_channel FROM artists WHERE name = ?`
then `row[0] if row and row[0] else None` — absent rows, NULL and `""` all
yield `None`. -/
def get_artist_channel (db : DB) (artist : String) : Option String :=
  match db artist with
  | some (some v) => if v = "" then none else some v
  | _ => none

/-- `set_artist_channel`: `UPDATE artists SET youtube_channel = ? WHERE
name = ?` — updates the column only where a row exists; an absent row is left
absent. -/
def set_artist_channel (db : DB) (artist url : String) : DB :=
  fun k =>
    if k = artist then
      match db k with
      | none => none
      | some _ => some (some url)
    else db k

/-!
## The resolver (`youtube_searcher.find_or_cache_artist_channel`)

The subprocess boundary is modelled by a `SearchOutcome`: either the
`yt-dlp ytsearch20` call fails with `CalledProcessError`, or it yields output
whose successfully JSON-decoded lines are the given entries
(`json.JSONDecodeError` lines are skipped by the `continue` in the source, so
only decoded entries reach the loop).
-/

/-- A JSON-decoded `yt-dlp --dump-json` result line, restricted to the keys
the resolver reads.  A missing key (`dict.get` default) is `none`. -/
structure RawEntry where
  channel : Option String
  uploader : Option String
  title : Option String
  channel_url : Option String
  uploader_url : Option String
  url : Option String
deriving DecidableEq, Repr

/-- Python's `a or b or ... or ""` over `Optional[str]` values: the first
truthy (present and non-empty) value, else `""`. -/
def pyOr : List (Option String) → String
  | [] => ""
  | x :: rest =>
    match x with
    | some s => if s = "" then pyOr rest else s
    | none => pyOr rest

/-- `data.get("channel") or data.get("uploader") or data.get("title") or ""`. -/
def displayNameOf (e : RawEntry) : String := pyOr [e.channel, e.uploader, e.title]

/-- `data.get("channel_url") or data.get("uploader_url") or data.get("url") or ""`. -/
def channelUrlOf (e : RawEntry) : String := pyOr [e.channel_url, e.uploader_url, e.url]

/-- The running best candidate of the resolver loop:
`best_url, best_similarity = "", 0.0`. -/
structure BestAcc where
  best_url : String
  best_similarity : Frac
deriving DecidableEq, Repr

/-- The filter-and-score part of one iteration of the resolver's candidate
loop (`youtube_searcher.py` lines 84–117): `none` when the candidate is
skipped by a `continue` (validity filter, length pre-filter, or
base-similarity threshold), otherwise its final score after bonuses. -/
def resolutionCandidateScore (artist_norm : String) (e : RawEntry) : Option Frac :=
  let display_name := displayNameOf e
  let channel_url := channelUrlOf e
  if display_name = "" || channel_url = "" || !strContainsSub channel_url "youtube.com" then
    none
  else
    let display_norm := normalize_name display_name
    let similarity := smRatio artist_norm display_norm
    if 3 < ((artist_norm.toList.length : Int) - (display_norm.toList.length : Int)).natAbs then
      none
    else if similarity.ltB ⟨3, 5⟩ then
      none
    else
      let s1 :=
        if artist_norm = display_norm then similarity.add ⟨3, 10⟩
        else if strContainsSub display_norm artist_norm ||
            strContainsSub artist_norm display_norm then similarity.add ⟨2, 10⟩
        else similarity
      let s2 := if strContainsSub (lowerStr display_name) "official" then s1.add ⟨1, 10⟩ else s1
      let s3 := if strContainsSub (lowerStr channel_url) "/@" then s2.add ⟨3, 20⟩ else s2
      let s4 :=
        if strContainsSub (lowerStr channel_url) "officialartistchannel" then s3.add ⟨1, 4⟩
        else s3
      some s4

/-- One iteration of the resolver's candidate loop (`youtube_searcher.py`
lines 78–121): a skipped candidate leaves the accumulator unchanged, a scored
one replaces it iff its score is strictly larger. -/
def processEntry (artist_norm : String) (acc : BestAcc) (e : RawEntry) : BestAcc :=
  match resolutionCandidateScore artist_norm e with
  | none => acc
  | some s => if acc.best_similarity.ltB s then ⟨channelUrlOf e, s⟩ else acc

/-- Outcome of the resolver's external `yt-dlp` search subprocess. -/
inductive SearchOutcome where
  | success (entries : List RawEntry)
  | calledProcessError
deriving DecidableEq, Repr

/-- Result of one `find_or_cache_artist_channel` call: the returned string,
the database afterwards, and how many external search subprocesses ran. -/
structure ResolveResult where
  result : String
  db : DB
  searches : Nat

/-- `find_or_cache_artist_channel(artist)` (`youtube_searcher.py` lines
47–133), with the subprocess boundary abstracted by `outcome`:
check the cache; on a miss run the external search (counted), score every
decoded entry, normalize a relative best URL to an absolute one, and persist
a non-empty result. -/
def find_or_cache_artist_channel (db : DB) (artist : String)
    (outcome : SearchOutcome) : ResolveResult :=
  match get_artist_channel db artist with
  | some cached => ⟨cached, db, 0⟩
  | none =>
    let artist_norm := normalize_name artist
    match outcome with
    | .calledProcessError => ⟨"", db, 1⟩
    | .success entries =>
      let acc := entries.foldl (processEntry artist_norm) ⟨"", ⟨0, 1⟩⟩
      let best_url :=
        if acc.best_url ≠ "" && !strBeginsWith acc.best_url "https://" then
          "https://www.youtube.com" ++ acc.best_url
        else acc.best_url
      if best_url ≠ "" then ⟨best_url, set_artist_channel db artist best_url, 1⟩
      else ⟨"", db, 1⟩

/-!
## The verifier (`verify_channel_matches.py`)
-/

/-- `line.split("|")` on character lists (Python `str.split` with an explicit
separator: `"".split("|") == [""]`, separators between every pair of
fields). -/
def splitOnBar : List Char → List (List Char)
  | [] => [[]]
  | c :: cs =>
    match splitOnBar cs with
    | [] => [[c]]
    | h :: t => if c = '|' then [] :: h :: t else (c :: h) :: t

/-- `[p.strip() for p in line.split("|")]`. -/
def stripParts (line : String) : List String :=
  (splitOnBar line.toList).map (fun p => String.mk (pyStripList p))

/-- The verifier's per-candidate score (`verify_channel_matches.py` lines
106–110): base ratio, `+0.1` for a `lyric`/`audio` substring of the
normalized title, `−0.1` for a `live`/`remix`/`cover`/`performance`
substring. -/
def verifCandidateScore (song_norm title_norm : String) : Frac :=
  let score := smRatio song_norm title_norm
  let score :=
    if ["lyric", "audio"].any (fun k => strContainsSub title_norm k) then score.add ⟨1, 10⟩
    else score
  if ["live", "remix", "cover", "performance"].any (fun k => strContainsSub title_norm k) then
    score.sub ⟨1, 10⟩
  else score

/-- Outcome of a bounded `yt-dlp` subprocess call: stdout split into lines, a
`subprocess.TimeoutExpired`, or a `subprocess.CalledProcessError`. -/
inductive SubprocResult where
  | success (lines : List String)
  | timeout
  | failed
deriving DecidableEq, Repr

/-- `search_channel_for_song(youtube_channel, song_name)`
(`verify_channel_matches.py` lines 71–116): on timeout or failure return
`None`; otherwise score each well-formed `title | uploader | url` line
against the song and return the best URL iff its score reaches `0.4`. -/
def search_channel_for_song (song_name : String) (res : SubprocResult) :
    Option String :=
  match res with
  | .timeout => none
  | .failed => none
  | .success lines =>
    let song_norm := normalize song_name
    let step := fun (acc : Option String × Frac) (line : String) =>
      let parts := stripParts line
      if parts.length < 3 then acc
      else
        let title := parts.getD 0 ""
        let url := parts.getD 2 ""
        let title_norm := normalize title
        if title_norm = "" then acc
        else
          let score := verifCandidateScore song_norm title_norm
          if acc.2.ltB score then (some url, score) else acc
    let best := lines.foldl step (none, ⟨0, 1⟩)
    if Frac.leB ⟨2, 5⟩ best.2 then best.1 else none

/-!
## The within-channel song search of `youtube_searcher.search_youtube_for_song`
(lines 270–294), scoring part
-/

/-- Per-candidate score of the channel branch of `search_youtube_for_song`:
base ratio on resolver-grade canonical forms, `+0.25` for substring
containment either way, `+0.1` for `lyric`/`audio`/`official`, `−0.05` for
`live`/`remix`/`cover`. -/
def songChannelScore (song_norm title_norm : String) : Frac :=
  let score := smRatio song_norm title_norm
  let score :=
    if strContainsSub title_norm song_norm || strContainsSub song_norm title_norm then
      score.add ⟨1, 4⟩
    else score
  let score :=
    if ["lyric", "audio", "official"].any (fun k => strContainsSub title_norm k) then
      score.add ⟨1, 10⟩
    else score
  if ["live", "remix", "cover"].any (fun k => strContainsSub title_norm k) then
    score.sub ⟨1, 20⟩
  else score

/-!
## External subprocess call sites and their timeouts

One constant per `subprocess.check_output` call in the two files the spec's
Candidate Source contract covers, holding the `timeout=` keyword passed at
that site (`none` when the call passes no timeout).
-/

/-- `find_or_cache_artist_channel` (`youtube_searcher.py` line 73):
`subprocess.check_output(cmd, text=True, errors="ignore",
stderr=subprocess.DEVNULL)` — no `timeout=` keyword. -/
def findOrCacheSearchTimeout : Option Nat := none

/-- `cache_youtube_album_search` (`youtube_searcher.py` line 172): `timeout=12`. -/
def cacheAlbumSearchTimeout : Option Nat := some 12

/-- channel branch of `search_youtube_for_song` (`youtube_searcher.py` line
259): `timeout=12`. -/
def channelSongSearchTimeout : Option Nat := some 12

/-- global fallback of `search_youtube_for_song` (`youtube_searcher.py` line
314): `timeout=10`. -/
def globalFallbackSearchTimeout : Option Nat := some 10

/-- `search_channel_for_song` (`verify_channel_matches.py` line 84):
`timeout=12`. -/
def verifyChannelSearchTimeout : Option Nat := some 12

/-- All external-search subprocess call sites of the resolver/verifier core. -/
def externalSearchTimeouts : List (Option Nat) :=
  [findOrCacheSearchTimeout, cacheAlbumSearchTimeout, channelSongSearchTimeout,
   globalFallbackSearchTimeout, verifyChannelSearchTimeout]

/-!
## The batch driver (`find_all_channels.py`)
-/

/-- `update_channel_in_db`: the same `UPDATE artists SET youtube_channel = ?
WHERE name = ?` statement as `set_artist_channel`. -/
def update_channel_in_db (db : DB) (artist url : String) : DB :=
  fun k =>
    if k = artist then
      match db k with
      | none => none
      | some _ => some (some url)
    else db k

/-- One unit of the batch run (`process_artist` plus the result handling in
`main`): resolve the artist, and persist the URL again iff it is truthy. -/
def processArtistMain (db : DB) (artist : String) (outcome : SearchOutcome) : DB :=
  let r := find_or_cache_artist_channel db artist outcome
  if r.result ≠ "" then update_channel_in_db r.db artist r.result else r.db

/-!
## Helper lemmas
-/

theorem str_eq_empty_iff (s : String) : s = "" ↔ s.toList = [] := by
  constructor
  · intro h; rw [h]; rfl
  · intro h; apply String.ext; exact h

theorem beginsWith_nil (l : List Char) : beginsWith l [] = true := by
  cases l <;> rfl

theorem beginsWith_append (pat l m : List Char) (h : beginsWith l pat = true) :
    beginsWith (l ++ m) pat = true := by
  induction pat generalizing l with
  | nil => exact beginsWith_nil _
  | cons p ps ih =>
    cases l with
    | nil => simp [beginsWith] at h
    | cons c cs =>
      simp only [beginsWith, Bool.and_eq_true] at h
      simp only [List.cons_append, beginsWith, Bool.and_eq_true]
      exact ⟨h.1, ih cs h.2⟩

theorem hasSub_append_left (pat l m : List Char) (h : hasSub l pat = true) :
    hasSub (l ++ m) pat = true := by
  induction l with
  | nil =>
    simp only [hasSub] at h
    cases pat with
    | nil => cases m <;> simp [hasSub, beginsWith]
    | cons p ps => simp [beginsWith] at h
  | cons c cs ih =>
    simp only [hasSub, Bool.or_eq_true] at h
    rcases h with h | h
    · simp only [List.cons_append, hasSub, Bool.or_eq_true]
      exact Or.inl (beginsWith_append pat (c :: cs) m h)
    · simp only [List.cons_append, hasSub, Bool.or_eq_true]
      exact Or.inr (ih h)

theorem strBeginsWith_append (s t : String) (pat : String)
    (h : strBeginsWith s pat = true) : strBeginsWith (s ++ t) pat = true := by
  unfold strBeginsWith at *
  have hd : (s ++ t).toList = s.toList ++ t.toList := String.data_append s t
  rw [hd]
  exact beginsWith_append _ _ _ h

theorem strContainsSub_append_left (s t : String) (pat : String)
    (h : strContainsSub s pat = true) : strContainsSub (s ++ t) pat = true := by
  unfold strContainsSub at *
  have hd : (s ++ t).toList = s.toList ++ t.toList := String.data_append s t
  rw [hd]
  exact hasSub_append_left _ _ _ h

theorem append_ne_empty_of_left (s t : String) (h : s ≠ "") : s ++ t ≠ "" := by
  intro he
  rw [str_eq_empty_iff] at he
  have hd : (s ++ t).toList = s.toList ++ t.toList := String.data_append s t
  rw [hd, List.append_eq_nil] at he
  exact h ((str_eq_empty_iff s).mpr he.1)

theorem Frac.ltB_zero_iff (x : Frac) : Frac.ltB ⟨0, 1⟩ x = true ↔ 0 < x.num := by
  simp [Frac.ltB]

theorem Frac.pos_den_add (x : Frac) (p : Int) (q : Nat) (hd : 0 < x.den) (hq : 0 < q) :
    0 < (Frac.add x ⟨p, q⟩).den := Nat.mul_pos hd hq

theorem Frac.pos_num_add (x : Frac) (p : Int) (q : Nat) (hx : 0 < x.num)
    (hd : 0 < x.den) (hp : 0 ≤ p) (hq : 0 < q) : 0 < (Frac.add x ⟨p, q⟩).num := by
  have h1 : (0 : Int) < x.num * (q : Int) :=
    mul_pos hx (by exact_mod_cast hq)
  have h2 : (0 : Int) ≤ p * (x.den : Int) :=
    mul_nonneg hp (Int.ofNat_nonneg x.den)
  exact add_pos_of_pos_of_nonneg h1 h2

theorem smRatio_den_pos (a b : String) : 0 < (smRatio a b).den := by
  simp only [smRatio]
  split
  · exact Nat.one_pos
  · simp only
    omega

/-- `get_artist_channel` after a `set_artist_channel` of a non-empty URL on an
existing row reads that URL back. -/
theorem get_set_same (db : DB) (a u : String) (hrow : (db a).isSome = true)
    (hu : u ≠ "") : get_artist_channel (set_artist_channel db a u) a = some u := by
  unfold get_artist_channel set_artist_channel
  cases h : db a with
  | none => rw [h] at hrow; simp at hrow
  | some v => simp [h, hu]

/-- On a cache hit the resolver returns immediately: no search, no write. -/
theorem find_or_cache_cache_hit (db : DB) (artist u : String) (o : SearchOutcome)
    (h : get_artist_channel db artist = some u) :
    find_or_cache_artist_channel db artist o = ⟨u, db, 0⟩ := by
  unfold find_or_cache_artist_channel
  rw [h]

/-- A cache read never yields the empty string. -/
theorem get_ne_empty (db : DB) (a u : String) (h : get_artist_channel db a = some u) :
    u ≠ "" := by
  unfold get_artist_channel at h
  split at h
  · rename_i v heq
    by_cases hv : v = ""
    · rw [if_pos hv] at h
      exact absurd h (by simp)
    · rw [if_neg hv] at h
      simp only [Option.some.injEq] at h
      rw [← h]
      exact hv
  · exact absurd h (by simp)

/-- A candidate failing the validity filter is skipped. -/
theorem resolutionCandidateScore_invalid (artist_norm : String) (e : RawEntry)
    (hc : (displayNameOf e = "" || channelUrlOf e = "" ||
      !strContainsSub (channelUrlOf e) "youtube.com") = true) :
    resolutionCandidateScore artist_norm e = none := by
  unfold resolutionCandidateScore
  rw [if_pos hc]

/-- A valid candidate whose canonical-form length differs from the target's
by more than 3 is skipped by the length pre-filter. -/
theorem resolutionCandidateScore_lengthFiltered (artist_norm : String) (e : RawEntry)
    (hc : (displayNameOf e = "" || channelUrlOf e = "" ||
      !strContainsSub (channelUrlOf e) "youtube.com") = false)
    (h : 3 < ((artist_norm.toList.length : Int) -
        ((normalize_name (displayNameOf e)).toList.length : Int)).natAbs) :
    resolutionCandidateScore artist_norm e = none := by
  unfold resolutionCandidateScore
  rw [if_neg (by simp [hc])]
  rw [if_pos h]

/-- A candidate that is scored (not skipped) passed the validity filter:
non-empty display name, non-empty URL containing `youtube.com`. -/
theorem resolutionCandidateScore_valid (artist_norm : String) (e : RawEntry) (s : Frac)
    (h : resolutionCandidateScore artist_norm e = some s) :
    displayNameOf e ≠ "" ∧ channelUrlOf e ≠ "" ∧
      strContainsSub (channelUrlOf e) "youtube.com" = true := by
  cases hc : (displayNameOf e = "" || channelUrlOf e = "" ||
      !strContainsSub (channelUrlOf e) "youtube.com") with
  | true =>
    rw [resolutionCandidateScore_invalid artist_norm e hc] at h
    exact absurd h (by simp)
  | false =>
    simp only [Bool.or_eq_false_iff, decide_eq_false_iff_not,
      Bool.not_eq_false] at hc
    refine ⟨hc.1.1, hc.1.2, ?_⟩
    have := hc.2
    simpa using this

/-- Loop invariant of the resolver's candidate fold: the running best URL is
empty or contains `youtube.com`. -/
theorem foldl_processEntry_url (artist_norm : String) (entries : List RawEntry)
    (acc : BestAcc)
    (hacc : acc.best_url = "" ∨ strContainsSub acc.best_url "youtube.com" = true) :
    (entries.foldl (processEntry artist_norm) acc).best_url = "" ∨
      strContainsSub (entries.foldl (processEntry artist_norm) acc).best_url
        "youtube.com" = true := by
  induction entries generalizing acc with
  | nil => exact hacc
  | cons e rest ih =>
    apply ih
    unfold processEntry
    cases hs : resolutionCandidateScore artist_norm e with
    | none => exact hacc
    | some s =>
      simp only
      split
      · exact Or.inr (resolutionCandidateScore_valid _ _ _ hs).2.2
      · exact hacc

/-- Exhaustive description of one `find_or_cache_artist_channel` call: a pure
cache hit, or a search that fails (no change), or a search that persists a
non-empty absolute URL containing `youtube.com`. -/
theorem find_or_cache_spec (db : DB) (artist : String) (outcome : SearchOutcome) :
    (∃ u, get_artist_channel db artist = some u ∧
      find_or_cache_artist_channel db artist outcome = ⟨u, db, 0⟩) ∨
    (get_artist_channel db artist = none ∧
      ((find_or_cache_artist_channel db artist outcome).result = "" ∧
        (find_or_cache_artist_channel db artist outcome).db = db ∧
        (find_or_cache_artist_channel db artist outcome).searches = 1 ∨
       (find_or_cache_artist_channel db artist outcome).result ≠ "" ∧
        strBeginsWith (find_or_cache_artist_channel db artist outcome).result
          "https://" = true ∧
        strContainsSub (find_or_cache_artist_channel db artist outcome).result
          "youtube.com" = true ∧
        (find_or_cache_artist_channel db artist outcome).db =
          set_artist_channel db artist
            (find_or_cache_artist_channel db artist outcome).result ∧
        (find_or_cache_artist_channel db artist outcome).searches = 1)) := by
  cases hget : get_artist_channel db artist with
  | some u =>
    left
    exact ⟨u, rfl, by simp [find_or_cache_artist_channel, hget]⟩
  | none =>
    right
    refine ⟨rfl, ?_⟩
    cases outcome with
    | calledProcessError =>
      left
      simp [find_or_cache_artist_channel, hget]
    | success entries =>
      have hinv := foldl_processEntry_url (normalize_name artist) entries
        ⟨"", ⟨0, 1⟩⟩ (Or.inl rfl)
      simp only [find_or_cache_artist_channel, hget]
      set acc := entries.foldl (processEntry (normalize_name artist)) ⟨"", ⟨0, 1⟩⟩ with hacc
      by_cases hbu : acc.best_url = ""
      · left
        simp [hbu]
      · by_cases hst : strBeginsWith acc.best_url "https://" = true
        · right
          have hc1 : (acc.best_url ≠ "" && !strBeginsWith acc.best_url "https://") = false := by
            simp [hst]
          simp only [hc1, Bool.false_eq_true, if_false]
          rw [if_pos hbu]
          exact ⟨hbu, hst, hinv.resolve_left hbu, rfl, rfl⟩
        · right
          have hst' : strBeginsWith acc.best_url "https://" = false := by
            simp only [Bool.not_eq_true] at hst
            exact hst
          have hc1 : (acc.best_url ≠ "" && !strBeginsWith acc.best_url "https://") = true := by
            simp [hst', hbu]
          simp only [hc1, eq_self_iff_true, if_true]
          have hne : "https://www.youtube.com" ++ acc.best_url ≠ "" :=
            append_ne_empty_of_left "https://www.youtube.com" acc.best_url (by decide)
          rw [if_pos hne]
          refine ⟨hne, ?_, ?_, rfl, rfl⟩
          · exact strBeginsWith_append "https://www.youtube.com" acc.best_url
              "https://" (by decide)
          · exact strContainsSub_append_left "https://www.youtube.com" acc.best_url
              "youtube.com" (by decide)

/-!
## Sample data used by witnesses and counterexamples
-/

/-- A database with one row, `"abcd"`, whose channel column is NULL. -/
def rowNullDb : DB := fun k => if k = "abcd" then some none else none

/-- Display name normalizing to `"abcxyz"`;
`SequenceMatcher(None, "abcd", "abcxyz").ratio() == 0.6` exactly. -/
def entryRatioSixTenths : RawEntry :=
  ⟨some "ABCXYZ", none, none, some "https://www.youtube.com/channel/UC1", none, none⟩

/-- Display name normalizing to `"axyzuv"`;
`SequenceMatcher(None, "abcd", "axyzuv").ratio() == 0.2 < 0.6`. -/
def entryRatioLow : RawEntry :=
  ⟨some "AXYZUV", none, none, some "https://www.youtube.com/channel/UC2", none, none⟩

/-- A candidate whose display name is exactly the token `live`. -/
def entryLive : RawEntry :=
  ⟨some "live", none, none, some "https://youtube.com/c/x", none, none⟩

/-- A candidate whose canonical form is 8 characters of `a`: similarity
`2/3 > 0.6` against the 4-`a` artist, but 4 characters longer. -/
def entryLongName : RawEntry :=
  ⟨some "aaaaaaaa", none, none,
    some "https://www.youtube.com/channel/UC3", none, none⟩

/-- Scenario-2 result line: the official audio upload. -/
def c7AudioLine : String :=
  "Daft Punk - Get Lucky (Official Audio) | Daft Punk | https://www.youtube.com/watch?v=1"

/-- Scenario-2 result line: the live version. -/
def c7LiveLine : String :=
  "Get Lucky (Live in Paris) | Daft Punk | https://www.youtube.com/watch?v=2"

/-!
## Claims
-/

/-- C1: for every artist key for which a resolution has already succeeded and
persisted a channel URL, a second `find_or_cache_artist_channel` call with no
cache mutation in between returns the cached URL, leaves the cache unchanged
and performs zero external search invocations — the subprocess branch is
unreachable when the cache lookup returns a non-empty value. -/
theorem c1_second_resolution_is_pure_cache_hit (db : DB) (artist : String)
    (o1 o2 : SearchOutcome) (hrow : (db artist).isSome = true)
    (hsucc : (find_or_cache_artist_channel db artist o1).result ≠ "") :
    find_or_cache_artist_channel
        (find_or_cache_artist_channel db artist o1).db artist o2 =
      ⟨(find_or_cache_artist_channel db artist o1).result,
        (find_or_cache_artist_channel db artist o1).db, 0⟩ := by
  rcases find_or_cache_spec db artist o1 with ⟨u, hget, heq⟩ | ⟨hget, hcase⟩
  · rw [heq]
    exact find_or_cache_cache_hit db artist u o2 hget
  · rcases hcase with ⟨hres, _, _⟩ | ⟨hne, _, _, hdb, _⟩
    · exact absurd hres hsucc
    · have hget2 : get_artist_channel (find_or_cache_artist_channel db artist o1).db
          artist = some (find_or_cache_artist_channel db artist o1).result := by
        rw [hdb]
        exact get_set_same db artist _ hrow hne
      exact find_or_cache_cache_hit _ artist _ o2 hget2

/-- Witness for C1 at a concrete database and search result. -/
theorem c1_witness :
    (rowNullDb "abcd").isSome = true ∧
    (find_or_cache_artist_channel rowNullDb "abcd"
      (.success [entryRatioSixTenths])).result ≠ "" ∧
    find_or_cache_artist_channel
        (find_or_cache_artist_channel rowNullDb "abcd"
          (.success [entryRatioSixTenths])).db "abcd" (.success []) =
      ⟨(find_or_cache_artist_channel rowNullDb "abcd"
          (.success [entryRatioSixTenths])).result,
        (find_or_cache_artist_channel rowNullDb "abcd"
          (.success [entryRatioSixTenths])).db, 0⟩ :=
  ⟨by decide, by decide,
    c1_second_resolution_is_pure_cache_hit rowNullDb "abcd"
      (.success [entryRatioSixTenths]) (.success []) (by decide) (by decide)⟩

/-- C2 counterexample: it is not the case that every external search
invocation carries a timeout of 10–12 time units — the resolver's own search
subprocess in `find_or_cache_artist_channel` passes no `timeout=` at all. -/
theorem c2_counterexample :
    ¬ externalSearchTimeouts.all
        (fun t => t.any (fun n => decide (10 ≤ n) && decide (n ≤ 12))) = true := by
  decide

/-- C2 (amended): every external search invocation except the resolver's own
in `find_or_cache_artist_channel` is a bounded subprocess call with timeout
10–12; on timeout or non-zero exit the verifier returns `None` and the
resolver returns `""` with the cache unchanged (no exception crosses the unit
boundary), leaving the artist's channel URL unset. -/
theorem c2_amended_bounded_or_graceful :
    [cacheAlbumSearchTimeout, channelSongSearchTimeout, globalFallbackSearchTimeout,
      verifyChannelSearchTimeout].all
        (fun t => t.any (fun n => decide (10 ≤ n) && decide (n ≤ 12))) = true ∧
    (∀ (db : DB) (artist : String), get_artist_channel db artist = none →
      find_or_cache_artist_channel db artist .calledProcessError = ⟨"", db, 1⟩) ∧
    (∀ song : String, search_channel_for_song song .timeout = none ∧
      search_channel_for_song song .failed = none) := by
  refine ⟨by decide, ?_, ?_⟩
  · intro db artist hget
    simp [find_or_cache_artist_channel, hget]
  · intro song
    exact ⟨rfl, rfl⟩

/-- Witness for C2 (amended) at a concrete database and song. -/
theorem c2_witness :
    get_artist_channel rowNullDb "abcd" = none ∧
    find_or_cache_artist_channel rowNullDb "abcd" .calledProcessError =
      ⟨"", rowNullDb, 1⟩ ∧
    search_channel_for_song "Get Lucky" .timeout = none :=
  ⟨by decide, c2_amended_bounded_or_graceful.2.1 rowNullDb "abcd" (by decide),
    (c2_amended_bounded_or_graceful.2.2 "Get Lucky").1⟩

/-- C4: at resolution scope, a candidate whose canonical-form length differs
from the target artist's canonical-form length by more than 3 characters is
skipped by the pre-filter — it never changes the running best candidate,
regardless of its textual similarity, and the check happens before any
bonus. -/
theorem c4_length_prefilter_rejects (artist : String) (acc : BestAcc) (e : RawEntry)
    (h : 3 < (((normalize_name artist).toList.length : Int) -
        ((normalize_name (displayNameOf e)).toList.length : Int)).natAbs) :
    processEntry (normalize_name artist) acc e = acc := by
  unfold processEntry
  cases hs : resolutionCandidateScore (normalize_name artist) e with
  | none => rfl
  | some s =>
    exfalso
    rcases Bool.eq_false_or_eq_true (displayNameOf e = "" || channelUrlOf e = "" ||
        !strContainsSub (channelUrlOf e) "youtube.com" : Bool) with hc | hc
    · rw [resolutionCandidateScore_invalid (normalize_name artist) e hc] at hs
      exact absurd hs (by simp)
    · rw [resolutionCandidateScore_lengthFiltered (normalize_name artist) e hc h] at hs
      exact absurd hs (by simp)

set_option maxRecDepth 4000 in
/-- Witness for C4: an 8-character candidate against a 4-character artist —
its base similarity `2/3` clears the `0.6` threshold, yet the length
pre-filter skips it. -/
theorem c4_witness :
    3 < (((normalize_name "aaaa").toList.length : Int) -
        ((normalize_name (displayNameOf entryLongName)).toList.length : Int)).natAbs ∧
    (smRatio (normalize_name "aaaa")
        (normalize_name (displayNameOf entryLongName))).eqv ⟨8, 12⟩ = true ∧
    (smRatio (normalize_name "aaaa")
        (normalize_name (displayNameOf entryLongName))).ltB ⟨3, 5⟩ = false ∧
    processEntry (normalize_name "aaaa") ⟨"", ⟨0, 1⟩⟩ entryLongName =
      ⟨"", ⟨0, 1⟩⟩ :=
  ⟨by decide, by decide, by decide,
    c4_length_prefilter_rejects "aaaa" ⟨"", ⟨0, 1⟩⟩ entryLongName
      (by decide)⟩

/-- Numerator/denominator positivity through a bonus addition. -/
theorem Frac.pos_addc (x : Frac) (p : Int) (q : Nat) (hx : 0 < x.num ∧ 0 < x.den)
    (hp : 0 ≤ p) (hq : 0 < q) :
    0 < (Frac.add x ⟨p, q⟩).num ∧ 0 < (Frac.add x ⟨p, q⟩).den :=
  ⟨Frac.pos_num_add x p q hx.1 hx.2 hp hq, Frac.pos_den_add x p q hx.2 hq⟩

/-- Positivity through a conditional bonus addition. -/
theorem Frac.pos_ite_add (c : Prop) [Decidable c] (x : Frac) (p : Int) (q : Nat)
    (hx : 0 < x.num ∧ 0 < x.den) (hp : 0 ≤ p) (hq : 0 < q) :
    0 < (if c then Frac.add x ⟨p, q⟩ else x).num ∧
      0 < (if c then Frac.add x ⟨p, q⟩ else x).den := by
  split
  · exact Frac.pos_addc x p q hx hp hq
  · exact hx

/-- A value rationally equal to a positive fraction has a positive
numerator. -/
theorem Frac.pos_num_of_eqv (x : Frac) (n : Int) (d : Nat)
    (h : Frac.eqv x ⟨n, d⟩ = true) (hn : 0 < n) (hd : 0 < x.den) : 0 < x.num := by
  simp only [Frac.eqv, decide_eq_true_eq] at h
  have hr : (0 : Int) < n * (x.den : Int) := mul_pos hn (by exact_mod_cast hd)
  rw [← h] at hr
  nlinarith [Int.ofNat_nonneg d]

/-- A value rationally equal to the threshold is not strictly below it. -/
theorem Frac.not_ltB_of_eqv (x : Frac) (n : Int) (d : Nat)
    (h : Frac.eqv x ⟨n, d⟩ = true) : Frac.ltB x ⟨n, d⟩ = false := by
  simp only [Frac.eqv, decide_eq_true_eq] at h
  simp [Frac.ltB, h]

/-- A value rationally equal to the threshold satisfies the `≥` test. -/
theorem Frac.leB_of_eqv (x : Frac) (n : Int) (d : Nat)
    (h : Frac.eqv x ⟨n, d⟩ = true) : Frac.leB ⟨n, d⟩ x = true := by
  simp only [Frac.eqv, decide_eq_true_eq] at h
  simp [Frac.leB, h.symm.le]

/-- A value strictly below the threshold fails the `≥` test. -/
theorem Frac.not_leB_of_ltB (x : Frac) (n : Int) (d : Nat)
    (h : Frac.ltB x ⟨n, d⟩ = true) : Frac.leB ⟨n, d⟩ x = false := by
  simp only [Frac.ltB, decide_eq_true_eq] at h
  simp only [Frac.leB, decide_eq_false_iff_not]
  omega

/-- The verifier's per-candidate score always has a positive denominator. -/
theorem verifCandidateScore_den_pos (a b : String) :
    0 < (verifCandidateScore a b).den := by
  have h := smRatio_den_pos a b
  unfold verifCandidateScore
  split
  · split
    · exact Nat.mul_pos (Nat.mul_pos h (by norm_num)) (by norm_num)
    · exact Nat.mul_pos h (by norm_num)
  · split
    · exact Nat.mul_pos h (by norm_num)
    · exact h

/-- A valid candidate whose base similarity is not below the `0.6` threshold
is scored, and its final score (after the non-negative bonuses) is positive
whenever the base similarity is. -/
theorem resolutionCandidateScore_some (artist_norm : String) (e : RawEntry)
    (hc : (displayNameOf e = "" || channelUrlOf e = "" ||
      !strContainsSub (channelUrlOf e) "youtube.com") = false)
    (hlen : ¬ 3 < ((artist_norm.toList.length : Int) -
        ((normalize_name (displayNameOf e)).toList.length : Int)).natAbs)
    (hthr : (smRatio artist_norm (normalize_name (displayNameOf e))).ltB ⟨3, 5⟩ = false)
    (hpos : 0 < (smRatio artist_norm (normalize_name (displayNameOf e))).num) :
    ∃ s, resolutionCandidateScore artist_norm e = some s ∧ 0 < s.num ∧ 0 < s.den := by
  unfold resolutionCandidateScore
  rw [if_neg (by simp [hc]), if_neg hlen, if_neg (by simp [hthr])]
  set sim := smRatio artist_norm (normalize_name (displayNameOf e)) with hsimdef
  have hbase : 0 < sim.num ∧ 0 < sim.den := ⟨hpos, smRatio_den_pos _ _⟩
  refine ⟨_, rfl, ?_⟩
  have h1 : 0 < (if artist_norm = normalize_name (displayNameOf e) then
        Frac.add sim ⟨3, 10⟩
      else if (strContainsSub (normalize_name (displayNameOf e)) artist_norm ||
          strContainsSub artist_norm (normalize_name (displayNameOf e))) = true then
        Frac.add sim ⟨2, 10⟩
      else sim).num ∧ 0 < (if artist_norm = normalize_name (displayNameOf e) then
        Frac.add sim ⟨3, 10⟩
      else if (strContainsSub (normalize_name (displayNameOf e)) artist_norm ||
          strContainsSub artist_norm (normalize_name (displayNameOf e))) = true then
        Frac.add sim ⟨2, 10⟩
      else sim).den := by
    split
    · exact Frac.pos_addc sim 3 10 hbase (by norm_num) (by norm_num)
    · exact Frac.pos_ite_add _ sim 2 10 hbase (by norm_num) (by norm_num)
  have h2 := Frac.pos_ite_add
    (strContainsSub (lowerStr (displayNameOf e)) "official" = true) _ 1 10 h1
    (by norm_num) (by norm_num)
  have h3 := Frac.pos_ite_add
    (strContainsSub (lowerStr (channelUrlOf e)) "/@" = true) _ 3 20 h2
    (by norm_num) (by norm_num)
  exact Frac.pos_ite_add
    (strContainsSub (lowerStr (channelUrlOf e)) "officialartistchannel" = true) _ 1 4 h3
    (by norm_num) (by norm_num)

/-- A candidate whose base similarity is strictly below `0.6` is skipped. -/
theorem resolutionCandidateScore_below_threshold (artist_norm : String) (e : RawEntry)
    (h : (smRatio artist_norm (normalize_name (displayNameOf e))).ltB ⟨3, 5⟩ = true) :
    resolutionCandidateScore artist_norm e = none := by
  cases hc : (displayNameOf e = "" || channelUrlOf e = "" ||
      !strContainsSub (channelUrlOf e) "youtube.com") with
  | true => exact resolutionCandidateScore_invalid artist_norm e hc
  | false =>
    by_cases hlen : 3 < ((artist_norm.toList.length : Int) -
        ((normalize_name (displayNameOf e)).toList.length : Int)).natAbs
    · exact resolutionCandidateScore_lengthFiltered artist_norm e hc hlen
    · unfold resolutionCandidateScore
      rw [if_neg (by simp [hc]), if_neg hlen, if_pos h]

/-- C3: acceptance-threshold boundaries are exact in both scopes.  At
resolution scope a sole valid candidate whose base similarity is exactly
`0.6` is accepted and its URL persisted, while one scoring below `0.6` (in
particular `0.5999`) is rejected and nothing is persisted; at verification
scope a sole candidate scoring exactly `0.4` is accepted, while one scoring
below `0.4` (in particular `0.3999`) is rejected and the search reports no
match. -/
theorem c3_threshold_boundaries :
    (∀ (db : DB) (artist : String) (e : RawEntry),
      (db artist).isSome = true →
      get_artist_channel db artist = none →
      (displayNameOf e = "" || channelUrlOf e = "" ||
        !strContainsSub (channelUrlOf e) "youtube.com") = false →
      ¬ 3 < (((normalize_name artist).toList.length : Int) -
          ((normalize_name (displayNameOf e)).toList.length : Int)).natAbs →
      (smRatio (normalize_name artist) (normalize_name (displayNameOf e))).eqv
        ⟨3, 5⟩ = true →
      (find_or_cache_artist_channel db artist (.success [e])).result ≠ "" ∧
      get_artist_channel
          (find_or_cache_artist_channel db artist (.success [e])).db artist =
        some (find_or_cache_artist_channel db artist (.success [e])).result) ∧
    (∀ (db : DB) (artist : String) (e : RawEntry),
      get_artist_channel db artist = none →
      (smRatio (normalize_name artist) (normalize_name (displayNameOf e))).ltB
        ⟨3, 5⟩ = true →
      find_or_cache_artist_channel db artist (.success [e]) = ⟨"", db, 1⟩) ∧
    (∀ song line : String,
      ¬ (stripParts line).length < 3 →
      normalize ((stripParts line).getD 0 "") ≠ "" →
      (verifCandidateScore (normalize song)
        (normalize ((stripParts line).getD 0 ""))).eqv ⟨2, 5⟩ = true →
      search_channel_for_song song (.success [line]) =
        some ((stripParts line).getD 2 "")) ∧
    (∀ song line : String,
      (verifCandidateScore (normalize song)
        (normalize ((stripParts line).getD 0 ""))).ltB ⟨2, 5⟩ = true →
      search_channel_for_song song (.success [line]) = none) := by
  refine ⟨?_, ?_, ?_, ?_⟩
  · intro db artist e hrow hget hc hlen heqv
    have hthr := Frac.not_ltB_of_eqv _ 3 5 heqv
    have hpos := Frac.pos_num_of_eqv _ 3 5 heqv (by norm_num) (smRatio_den_pos _ _)
    obtain ⟨s, hs, hsnum, _⟩ :=
      resolutionCandidateScore_some (normalize_name artist) e hc hlen hthr hpos
    have hvalid := resolutionCandidateScore_valid _ _ _ hs
    have hpe : processEntry (normalize_name artist) ⟨"", ⟨0, 1⟩⟩ e =
        ⟨channelUrlOf e, s⟩ := by
      unfold processEntry
      rw [hs]
      exact if_pos ((Frac.ltB_zero_iff s).mpr hsnum)
    simp only [find_or_cache_artist_channel, hget, List.foldl_cons, List.foldl_nil, hpe]
    by_cases hst : strBeginsWith (channelUrlOf e) "https://" = true
    · have hc1 : (channelUrlOf e ≠ "" && !strBeginsWith (channelUrlOf e) "https://")
          = false := by simp [hst]
      simp only [hc1, Bool.false_eq_true, if_false]
      rw [if_pos hvalid.2.1]
      exact ⟨hvalid.2.1, get_set_same db artist _ hrow hvalid.2.1⟩
    · have hst' : strBeginsWith (channelUrlOf e) "https://" = false := by
        simp only [Bool.not_eq_true] at hst
        exact hst
      have hc1 : (channelUrlOf e ≠ "" && !strBeginsWith (channelUrlOf e) "https://")
          = true := by simp [hst', hvalid.2.1]
      simp only [hc1, eq_self_iff_true, if_true]
      have hne : "https://www.youtube.com" ++ channelUrlOf e ≠ "" :=
        append_ne_empty_of_left "https://www.youtube.com" (channelUrlOf e) (by decide)
      rw [if_pos hne]
      exact ⟨hne, get_set_same db artist _ hrow hne⟩
  · intro db artist e hget hlt
    have hnone := resolutionCandidateScore_below_threshold (normalize_name artist) e hlt
    have hpe : processEntry (normalize_name artist) ⟨"", ⟨0, 1⟩⟩ e = ⟨"", ⟨0, 1⟩⟩ := by
      unfold processEntry
      rw [hnone]
    simp only [find_or_cache_artist_channel, hget, List.foldl_cons, List.foldl_nil, hpe]
    simp
  · intro song line hlen3 htitle heqv
    have hden := verifCandidateScore_den_pos (normalize song)
      (normalize ((stripParts line).getD 0 ""))
    have hpos := Frac.pos_num_of_eqv _ 2 5 heqv (by norm_num) hden
    unfold search_channel_for_song
    simp only [List.foldl_cons, List.foldl_nil]
    rw [if_neg hlen3, if_neg htitle]
    rw [if_pos ((Frac.ltB_zero_iff _).mpr hpos)]
    simp only
    rw [if_pos (Frac.leB_of_eqv _ 2 5 heqv)]
  · intro song line hlt
    unfold search_channel_for_song
    simp only [List.foldl_cons, List.foldl_nil]
    by_cases h3 : (stripParts line).length < 3
    · rw [if_pos h3]
      simp only
      rw [if_neg (by decide : ¬ Frac.leB ⟨2, 5⟩ ⟨0, 1⟩ = true)]
    · rw [if_neg h3]
      by_cases ht : normalize ((stripParts line).getD 0 "") = ""
      · rw [if_pos ht]
        simp only
        rw [if_neg (by decide : ¬ Frac.leB ⟨2, 5⟩ ⟨0, 1⟩ = true)]
      · rw [if_neg ht]
        by_cases hsel : Frac.ltB ⟨0, 1⟩ (verifCandidateScore (normalize song)
            (normalize ((stripParts line).getD 0 ""))) = true
        · rw [if_pos hsel]
          simp only
          have hleB := Frac.not_leB_of_ltB _ 2 5 hlt
          rw [if_neg (by simp only [Bool.not_eq_true]; exact hleB)]
        · rw [if_neg hsel]
          simp only
          rw [if_neg (by decide : ¬ Frac.leB ⟨2, 5⟩ ⟨0, 1⟩ = true)]

/-- Witness for C3 at concrete boundary inputs: base similarity exactly
`0.6` (accepted and persisted), `0.2 < 0.6` (rejected), verification score
exactly `0.4` (accepted), `0.2 < 0.4` (rejected). -/
theorem c3_witness :
    ((find_or_cache_artist_channel rowNullDb "abcd"
        (.success [entryRatioSixTenths])).result ≠ "" ∧
      get_artist_channel (find_or_cache_artist_channel rowNullDb "abcd"
          (.success [entryRatioSixTenths])).db "abcd" =
        some (find_or_cache_artist_channel rowNullDb "abcd"
          (.success [entryRatioSixTenths])).result) ∧
    find_or_cache_artist_channel rowNullDb "abcd" (.success [entryRatioLow]) =
      ⟨"", rowNullDb, 1⟩ ∧
    search_channel_for_song "abcd" (.success ["abxyzw | up | http://u"]) =
      some "http://u" ∧
    search_channel_for_song "abcd" (.success ["azzzzz | up | http://u"]) = none :=
  ⟨c3_threshold_boundaries.1 rowNullDb "abcd" entryRatioSixTenths (by decide)
      (by decide) (by decide) (by decide) (by decide),
    c3_threshold_boundaries.2.1 rowNullDb "abcd" entryRatioLow (by decide) (by decide),
    c3_threshold_boundaries.2.2.1 "abcd" "abxyzw | up | http://u" (by decide)
      (by decide) (by decide),
    c3_threshold_boundaries.2.2.2 "abcd" "azzzzz | up | http://u" (by decide)⟩

/-- C7 counterexample: with `"Get Lucky (Live in Paris)"` as the sole
candidate in the channel, verification does **not** reject it — the live
penalty leaves the score at `0.4625 ≥ 0.4` and the candidate is accepted. -/
theorem c7_counterexample :
    search_channel_for_song "Get Lucky" (.success [c7LiveLine]) =
      some "https://www.youtube.com/watch?v=2" := by
  decide

/-- C7 (amended): verifying song `"Get Lucky"` against
`"Daft Punk - Get Lucky (Official Audio)"` scores `9/14 ≈ 0.643 > 0.4`
(pure base ratio: the normalizer strips the `audio` token before the bonus
check, and the verifier has no containment bonus) and is accepted; against
`"Get Lucky (Live in Paris)"` it scores lower (`37/80 = 0.4625`, live
penalty applied) but still at least `0.4`, so as sole candidate it is
accepted as well, not rejected. -/
theorem c7_scenario2_scores :
    (verifCandidateScore (normalize "Get Lucky")
        (normalize "Daft Punk - Get Lucky (Official Audio)")).eqv ⟨9, 14⟩ = true ∧
    Frac.ltB ⟨2, 5⟩ ⟨9, 14⟩ = true ∧
    search_channel_for_song "Get Lucky" (.success [c7AudioLine]) =
      some "https://www.youtube.com/watch?v=1" ∧
    (verifCandidateScore (normalize "Get Lucky")
        (normalize "Get Lucky (Live in Paris)")).eqv ⟨37, 80⟩ = true ∧
    Frac.ltB ⟨37, 80⟩ ⟨9, 14⟩ = true ∧
    Frac.leB ⟨2, 5⟩ ⟨37, 80⟩ = true ∧
    search_channel_for_song "Get Lucky" (.success [c7LiveLine]) =
      some "https://www.youtube.com/watch?v=2" := by
  decide

/-- Writing a non-empty URL preserves "this key holds a non-empty value". -/
theorem set_preserves_nonempty (db : DB) (a url k u : String)
    (hk : db k = some (some u)) (hu : u ≠ "") (hurl : url ≠ "") :
    ∃ v, set_artist_channel db a url k = some (some v) ∧ v ≠ "" := by
  unfold set_artist_channel
  by_cases h : k = a
  · refine ⟨url, ?_, hurl⟩
    rw [if_pos h, hk]
  · rw [if_neg h]
    exact ⟨u, hk, hu⟩

/-- `update_channel_in_db` is the same SQL statement as
`set_artist_channel`. -/
theorem update_eq_set (db : DB) (a url : String) :
    update_channel_in_db db a url = set_artist_channel db a url := rfl

/-- C8: the cache invariant is preserved by every operation of this core —
once an artist's cached channel URL is a non-empty value, neither a
`find_or_cache_artist_channel` call nor a full batch unit
(`processArtistMain`) ever replaces it with an empty value: the key still
holds a non-empty URL afterwards, because every write stores the non-empty
URL of a successful resolution. -/
theorem c8_nonempty_value_never_cleared (db : DB) (artist : String)
    (outcome : SearchOutcome) (k u : String)
    (hk : db k = some (some u)) (hu : u ≠ "") :
    (∃ v, (find_or_cache_artist_channel db artist outcome).db k = some (some v) ∧
      v ≠ "") ∧
    (∃ v, processArtistMain db artist outcome k = some (some v) ∧ v ≠ "") := by
  have hfind : ∃ v, (find_or_cache_artist_channel db artist outcome).db k =
      some (some v) ∧ v ≠ "" := by
    rcases find_or_cache_spec db artist outcome with ⟨u', _, heq⟩ | ⟨_, hcase⟩
    · rw [heq]
      exact ⟨u, hk, hu⟩
    · rcases hcase with ⟨_, hdb, _⟩ | ⟨hne, _, _, hdb, _⟩
      · rw [hdb]
        exact ⟨u, hk, hu⟩
      · rw [hdb]
        exact set_preserves_nonempty db artist _ k u hk hu hne
  refine ⟨hfind, ?_⟩
  obtain ⟨v, hv, hvne⟩ := hfind
  unfold processArtistMain
  by_cases hres : (find_or_cache_artist_channel db artist outcome).result ≠ ""
  · rw [if_pos hres, update_eq_set]
    exact set_preserves_nonempty _ artist _ k v hv hvne hres
  · rw [if_neg hres]
    exact ⟨v, hv, hvne⟩

/-- A database with an existing non-empty channel entry for `"a"`. -/
def filledDb : DB :=
  fun k => if k = "a" then some (some "https://www.youtube.com/@a") else none

/-- Witness for C8 at a concrete database, key and batch unit. -/
theorem c8_witness :
    filledDb "a" = some (some "https://www.youtube.com/@a") ∧
    (∃ v, (find_or_cache_artist_channel filledDb "a" .calledProcessError).db "a" =
      some (some v) ∧ v ≠ "") ∧
    (∃ v, processArtistMain filledDb "a" .calledProcessError "a" =
      some (some v) ∧ v ≠ "") :=
  ⟨by decide,
    (c8_nonempty_value_never_cleared filledDb "a" .calledProcessError "a"
      "https://www.youtube.com/@a" (by decide) (by decide)).1,
    (c8_nonempty_value_never_cleared filledDb "a" .calledProcessError "a"
      "https://www.youtube.com/@a" (by decide) (by decide)).2⟩

/-- A write that changed the value at `k` stored exactly the written URL. -/
theorem set_changed (db : DB) (a url k : String)
    (h : set_artist_channel db a url k ≠ db k) :
    set_artist_channel db a url k = some (some url) := by
  unfold set_artist_channel at *
  by_cases hk : k = a
  · rw [if_pos hk] at *
    cases hdb : db k with
    | none => rw [hdb] at h; exact absurd rfl h
    | some v => rfl
  · rw [if_neg hk] at h
    exact absurd rfl h

/-- C10: every channel URL the resolver persists to the cache is non-empty,
begins with `https://` and contains `youtube.com` — candidates with an empty
display name, empty URL, or URL not containing `youtube.com` are never
selected, and a selected URL not already starting with `https://` is
prefixed with `https://www.youtube.com` before being stored. -/
theorem c10_persisted_urls_wellformed (db : DB) (artist : String)
    (outcome : SearchOutcome) :
    (get_artist_channel db artist = none →
      (find_or_cache_artist_channel db artist outcome).result ≠ "" →
      strBeginsWith (find_or_cache_artist_channel db artist outcome).result
          "https://" = true ∧
      strContainsSub (find_or_cache_artist_channel db artist outcome).result
          "youtube.com" = true) ∧
    (∀ k, (find_or_cache_artist_channel db artist outcome).db k ≠ db k →
      ∃ u, (find_or_cache_artist_channel db artist outcome).db k =
          some (some u) ∧ u ≠ "" ∧ strBeginsWith u "https://" = true ∧
        strContainsSub u "youtube.com" = true) := by
  constructor
  · intro hget hres
    rcases find_or_cache_spec db artist outcome with ⟨u', hg, _⟩ | ⟨_, hcase⟩
    · rw [hget] at hg
      exact absurd hg (by simp)
    · rcases hcase with ⟨he, _, _⟩ | ⟨_, hb, hc, _, _⟩
      · exact absurd he hres
      · exact ⟨hb, hc⟩
  · intro k hchanged
    rcases find_or_cache_spec db artist outcome with ⟨u', _, heq⟩ | ⟨_, hcase⟩
    · rw [heq] at hchanged
      exact absurd rfl hchanged
    · rcases hcase with ⟨_, hdb, _⟩ | ⟨hne, hb, hc, hdb, _⟩
      · rw [hdb] at hchanged
        exact absurd rfl hchanged
      · rw [hdb] at hchanged ⊢
        refine ⟨(find_or_cache_artist_channel db artist outcome).result,
          set_changed db artist _ k hchanged, hne, hb, hc⟩

/-- Witness for C10: the `0.6`-scoring candidate's URL is persisted and
well-formed. -/
theorem c10_witness :
    get_artist_channel rowNullDb "abcd" = none ∧
    (find_or_cache_artist_channel rowNullDb "abcd"
      (.success [entryRatioSixTenths])).result ≠ "" ∧
    strBeginsWith (find_or_cache_artist_channel rowNullDb "abcd"
      (.success [entryRatioSixTenths])).result "https://" = true ∧
    strContainsSub (find_or_cache_artist_channel rowNullDb "abcd"
      (.success [entryRatioSixTenths])).result "youtube.com" = true :=
  ⟨by decide, by decide,
    (c10_persisted_urls_wellformed rowNullDb "abcd" (.success [entryRatioSixTenths])).1
      (by decide) (by decide)⟩

/-- Modelled from the spec (§4.3), for comparison with the code: the
resolution-scope scorer as claim C6 states it — the code's scorer with an
additional `−0.05` whenever the candidate text contains a `live`, `remix`,
`cover` or `performance` token. -/
def claimedResolutionScore (artist_norm : String) (e : RawEntry) : Option Frac :=
  (resolutionCandidateScore artist_norm e).map (fun s =>
    if ["live", "remix", "cover", "performance"].any
        (fun t => strContainsSub (lowerStr (displayNameOf e)) t) then
      s.sub ⟨1, 20⟩
    else s)

/-- Rational equality on optional scores. -/
def optFracEqv : Option Frac → Option Frac → Bool
  | none, none => true
  | some x, some y => Frac.eqv x y
  | _, _ => false

/-- C6 counterexample: the resolution-scope scorer does **not** subtract
`0.05` for `live`/`remix`/`cover`/`performance` tokens — for the candidate
named exactly `live` the code scores `13/10` (ratio `1.0` plus the `0.3`
exact-match bonus, nothing subtracted), while the claimed scorer yields
`5/4`. -/
theorem c6_counterexample :
    ¬ ∀ (artist_norm : String) (e : RawEntry),
        optFracEqv (resolutionCandidateScore artist_norm e)
          (claimedResolutionScore artist_norm e) = true := by
  intro h
  exact absurd (h "live" entryLive) (by decide)

/-- C6 (amended): the token penalty exists only outside artist-channel
resolution — the verification-scope scorer subtracts `0.1` when the
normalized title contains a `live`/`remix`/`cover`/`performance` token, and
the within-channel song search of `search_youtube_for_song` subtracts `0.05`
for `live`/`remix`/`cover` (only those three); artist-channel resolution
applies no such penalty. -/
theorem c6_penalties_by_scope :
    (∀ song_norm title_norm : String,
      ["live", "remix", "cover", "performance"].any
          (fun t => strContainsSub title_norm t) = true →
      verifCandidateScore song_norm title_norm =
        Frac.sub
          (if ["lyric", "audio"].any (fun t => strContainsSub title_norm t) then
            (smRatio song_norm title_norm).add ⟨1, 10⟩
          else smRatio song_norm title_norm) ⟨1, 10⟩) ∧
    (∀ song_norm title_norm : String,
      ["live", "remix", "cover"].any (fun t => strContainsSub title_norm t) = true →
      songChannelScore song_norm title_norm =
        Frac.sub
          (if ["lyric", "audio", "official"].any
              (fun t => strContainsSub title_norm t) then
            (if (strContainsSub title_norm song_norm ||
                strContainsSub song_norm title_norm) = true then
              (smRatio song_norm title_norm).add ⟨1, 4⟩
            else smRatio song_norm title_norm).add ⟨1, 10⟩
          else
            if (strContainsSub title_norm song_norm ||
                strContainsSub song_norm title_norm) = true then
              (smRatio song_norm title_norm).add ⟨1, 4⟩
            else smRatio song_norm title_norm) ⟨1, 20⟩) := by
  constructor
  · intro song_norm title_norm h
    unfold verifCandidateScore
    rw [if_pos h]
  · intro song_norm title_norm h
    unfold songChannelScore
    rw [if_pos h]

/-- Witness for C6 (amended) at concrete scorer inputs. -/
theorem c6_witness :
    verifCandidateScore "x" "live" = Frac.sub (smRatio "x" "live") ⟨1, 10⟩ ∧
    songChannelScore "x" "live" = Frac.sub (smRatio "x" "live") ⟨1, 20⟩ := by
  constructor
  · have h := c6_penalties_by_scope.1 "x" "live" (by decide)
    rw [h, if_neg (by decide)]
  · have h := c6_penalties_by_scope.2 "x" "live" (by decide)
    rw [h, if_neg (by decide), if_neg (by decide)]

/-!
## Interleaving model for the concurrent batch run (`find_all_channels.py`)

`main` dispatches one `process_artist` task per pending artist onto a thread
pool; each task runs `find_or_cache_artist_channel`, whose externally visible
steps are (1) the initial `get_artist_channel` cache read and (2) the
external search followed by the conditional `set_artist_channel` write.  A
worker is one such task; a schedule is the interleaving order of the atomic
steps.  The model exposes exactly the race of interest: between a worker's
cache read and its write, other workers may run.
-/

/-- One batch worker (`process_artist` running
`find_or_cache_artist_channel` for its key).  `pc = 0`: before the initial
cache read; `pc = 1`: read missed, about to run the external search;
`pc = 2`: done.  `found` is the URL its search would select (`""` when the
search selects nothing). -/
structure WorkerState where
  key : String
  found : String
  pc : Nat
deriving DecidableEq, Repr

/-- Shared state of a batch run: the database, the workers, and — for the
claim's accounting — how many external searches ran per artist key. -/
structure RunState where
  db : DB
  workers : List WorkerState
  searches : String → Nat

/-- One atomic step of worker `i`: at `pc 0` the `get_artist_channel` read
(hit → done, miss → about to search); at `pc 1` the external search plus the
conditional non-empty write, counted against the worker's key. -/
def stepWorker (s : RunState) (i : Nat) : RunState :=
  match s.workers.get? i with
  | none => s
  | some w =>
    if w.pc = 0 then
      match get_artist_channel s.db w.key with
      | some _ => ⟨s.db, s.workers.set i ⟨w.key, w.found, 2⟩, s.searches⟩
      | none => ⟨s.db, s.workers.set i ⟨w.key, w.found, 1⟩, s.searches⟩
    else if w.pc = 1 then
      ⟨if w.found ≠ "" then set_artist_channel s.db w.key w.found else s.db,
        s.workers.set i ⟨w.key, w.found, 2⟩,
        fun k => if k = w.key then s.searches k + 1 else s.searches k⟩
    else s

/-- Run a schedule: the interleaving chooses which worker steps next. -/
def runSched (s : RunState) (sched : List Nat) : RunState :=
  sched.foldl stepWorker s

/-- Workers for key `k` that have not finished (their search may still be
ahead of them). -/
def pendingCount (ws : List WorkerState) (k : String) : Nat :=
  ws.countP (fun w => w.key == k && decide (w.pc ≤ 1))

/-- C9 counterexample: the resolver provides no single-flight guarantee —
with two workers on the same cold key, the interleaving read, read, search,
search performs two external searches for that key. -/
theorem c9_counterexample :
    ¬ ∀ (db : DB) (ws : List WorkerState) (sched : List Nat) (k : String),
        (∀ w ∈ ws, w.pc = 0) →
        (runSched ⟨db, ws, fun _ => 0⟩ sched).searches k ≤ 1 := by
  intro h
  exact absurd
    (h rowNullDb
      [⟨"abcd", "https://www.youtube.com/@x", 0⟩,
       ⟨"abcd", "https://www.youtube.com/@x", 0⟩]
      [0, 1, 0, 1] "abcd" (by decide))
    (by decide)

/-- Counting a `List.set` position: the old element's contribution is
exchanged for the new one's. -/
theorem countP_set_get? {α : Type} (p : α → Bool) (l : List α) (i : Nat) (x w : α)
    (h : l.get? i = some w) :
    (l.set i x).countP p + (if p w then 1 else 0) =
      l.countP p + (if p x then 1 else 0) := by
  induction l generalizing i with
  | nil => simp at h
  | cons a t ih =>
    cases i with
    | zero =>
      simp only [List.get?] at h
      injection h with h
      subst h
      simp only [List.set, List.countP_cons]
      omega
    | succ n =>
      simp only [List.get?] at h
      simp only [List.set, List.countP_cons]
      have := ih n h
      omega

/-- Each step can only trade a pending worker for a search: the sum
`searches k + pendingCount k` never increases. -/
theorem stepWorker_measure (s : RunState) (i : Nat) (k : String) :
    (stepWorker s i).searches k + pendingCount (stepWorker s i).workers k ≤
      s.searches k + pendingCount s.workers k := by
  unfold stepWorker pendingCount
  cases hw : s.workers.get? i with
  | none => exact Nat.le_refl _
  | some w =>
    dsimp only
    have hc2 := countP_set_get? (fun w' => w'.key == k && decide (w'.pc ≤ 1))
      s.workers i ⟨w.key, w.found, 2⟩ w hw
    have hc1 := countP_set_get? (fun w' => w'.key == k && decide (w'.pc ≤ 1))
      s.workers i ⟨w.key, w.found, 1⟩ w hw
    cases hkb : (w.key == k) with
    | false =>
      simp only [hkb, Bool.false_and, Bool.false_eq_true, if_false, Nat.add_zero]
        at hc1 hc2
      by_cases h0 : w.pc = 0
      · rw [if_pos h0]
        cases hget : get_artist_channel s.db w.key with
        | some c => dsimp only; omega
        | none => dsimp only; omega
      · rw [if_neg h0]
        by_cases h1 : w.pc = 1
        · rw [if_pos h1]
          dsimp only
          have hksearch : (if k = w.key then s.searches k + 1 else s.searches k) =
              s.searches k := by
            rw [if_neg]
            intro hcontra
            rw [beq_eq_false_iff_ne] at hkb
            exact hkb hcontra.symm
          rw [hksearch]
          omega
        · rw [if_neg h1]
    | true =>
      simp only [hkb, Bool.true_and] at hc1 hc2
      have hk : k = w.key := by
        rw [beq_iff_eq] at hkb
        exact hkb.symm
      simp only [show decide ((2 : Nat) ≤ 1) = false from rfl,
        show decide ((1 : Nat) ≤ 1) = true from rfl, Bool.false_eq_true, if_false,
        if_true, Nat.add_zero] at hc1 hc2
      by_cases h0 : w.pc = 0
      · rw [if_pos h0]
        simp only [h0, show decide ((0 : Nat) ≤ 1) = true from rfl, if_true]
          at hc1 hc2
        cases hget : get_artist_channel s.db w.key with
        | some c => dsimp only; omega
        | none => dsimp only; omega
      · rw [if_neg h0]
        by_cases h1 : w.pc = 1
        · rw [if_pos h1]
          dsimp only
          simp only [h1, show decide ((1 : Nat) ≤ 1) = true from rfl, if_true]
            at hc1 hc2
          rw [if_pos hk]
          omega
        · rw [if_neg h1]

/-- With pairwise-distinct keys, at most one non-finished worker exists per
key. -/
theorem pendingCount_le_one (ws : List WorkerState) (k : String)
    (h : ws.Pairwise (fun w1 w2 => w1.key ≠ w2.key)) :
    pendingCount ws k ≤ 1 := by
  induction ws with
  | nil => simp [pendingCount]
  | cons w t ih =>
    rcases List.pairwise_cons.mp h with ⟨hw, ht⟩
    unfold pendingCount at *
    rw [List.countP_cons]
    by_cases hk : w.key = k
    · have hzero : t.countP (fun w' => w'.key == k && decide (w'.pc ≤ 1)) = 0 := by
        rw [List.countP_eq_zero]
        intro w' hw'
        have hne := hw w' hw'
        have hkb : (w'.key == k) = false := by
          rw [beq_eq_false_iff_ne]
          intro heq
          rw [hk] at hne
          exact hne heq.symm
        simp [hkb]
      rw [hzero]
      have hle : (if (w.key == k && decide (w.pc ≤ 1)) = true then 1 else 0) ≤ 1 := by
        split
        · exact Nat.le_refl 1
        · exact Nat.zero_le 1
      omega
    · have hkb : (w.key == k) = false := by
        rw [beq_eq_false_iff_ne]
        exact hk
      simp only [hkb, Bool.false_and, Bool.false_eq_true, if_false, Nat.add_zero]
      exact ih ht

/-- C9 (amended): the code has no single-flight mechanism (see the
counterexample), but the batch driver submits one task per artist key —
artist names are unique in the database — so within one batch run at most
one external search is performed per key, under every interleaving. -/
theorem c9_one_search_per_key_per_batch (db : DB) (ws : List WorkerState)
    (sched : List Nat) (k : String)
    (hdistinct : ws.Pairwise (fun w1 w2 => w1.key ≠ w2.key)) :
    (runSched ⟨db, ws, fun _ => 0⟩ sched).searches k ≤ 1 := by
  have hmono : ∀ (l : List Nat) (s : RunState),
      (runSched s l).searches k + pendingCount (runSched s l).workers k ≤
        s.searches k + pendingCount s.workers k := by
    intro l
    induction l with
    | nil => intro s; exact Nat.le_refl _
    | cons i t ih =>
      intro s
      exact Nat.le_trans (ih (stepWorker s i)) (stepWorker_measure s i k)
  have h0 := hmono sched ⟨db, ws, fun _ => 0⟩
  dsimp only at h0
  have h1 := pendingCount_le_one ws k hdistinct
  omega

/-- Witness for C9 (amended): two workers on distinct keys, fully
interleaved, still at most one search per key. -/
theorem c9_witness :
    ([⟨"a", "https://www.youtube.com/@a", 0⟩,
      (⟨"b", "https://www.youtube.com/@b", 0⟩ : WorkerState)].Pairwise
        (fun w1 w2 => w1.key ≠ w2.key)) ∧
    (runSched ⟨rowNullDb,
        [⟨"a", "https://www.youtube.com/@a", 0⟩,
         ⟨"b", "https://www.youtube.com/@b", 0⟩], fun _ => 0⟩
      [0, 1, 0, 1]).searches "a" ≤ 1 :=
  ⟨by decide,
    c9_one_search_per_key_per_batch rowNullDb
      [⟨"a", "https://www.youtube.com/@a", 0⟩,
       ⟨"b", "https://www.youtube.com/@b", 0⟩]
      [0, 1, 0, 1] "a" (by decide)⟩

/-!
## Character-class lemmas
-/

theorem lowerChar_id (c : Char) (h : isLowAlnum c = true ∨ c = ' ') :
    lowerChar c = c := by
  unfold lowerChar
  rw [if_neg]
  intro hAZ
  simp only [Bool.and_eq_true, decide_eq_true_eq] at hAZ
  rcases h with h | h
  · simp only [isLowAlnum, Bool.or_eq_true, Bool.and_eq_true, decide_eq_true_eq] at h
    rcases h with ⟨h1, _⟩ | ⟨_, h3⟩
    · exact absurd (le_trans h1 hAZ.2) (by decide)
    · exact absurd (le_trans hAZ.1 h3) (by decide)
  · subst h
    exact absurd hAZ.1 (by decide)

theorem word_of_alnum (c : Char) (h : isLowAlnum c = true) : isWordChar c = true := by
  simp only [isLowAlnum, Bool.or_eq_true] at h
  simp only [isWordChar, Bool.or_eq_true]
  tauto

set_option maxHeartbeats 1000000 in
theorem not_space_of_alnum (c : Char) (h : isLowAlnum c = true) :
    isSpaceChar c = false := by
  simp only [isLowAlnum, Bool.or_eq_true, Bool.and_eq_true, decide_eq_true_eq] at h
  cases hs : isSpaceChar c
  · rfl
  · exfalso
    simp only [isSpaceChar, Bool.or_eq_true, decide_eq_true_eq] at hs
    have hc : c = ' ' ∨ c = '\t' ∨ c = '\n' ∨ c = '\x0d' ∨ c = '\x0b' ∨
        c = '\x0c' := by tauto
    rcases hc with h1 | h1 | h1 | h1 | h1 | h1 <;> subst h1 <;>
      rcases h with ⟨h2, _⟩ | ⟨h2, _⟩ <;> exact absurd h2 (by decide)

set_option maxHeartbeats 1000000 in
theorem not_word_of_space (c : Char) (h : isSpaceChar c = true) :
    isWordChar c = false := by
  simp only [isSpaceChar, Bool.or_eq_true, decide_eq_true_eq] at h
  cases hw : isWordChar c
  · rfl
  · exfalso
    simp only [isWordChar, Bool.or_eq_true, Bool.and_eq_true, decide_eq_true_eq] at hw
    have hc : c = ' ' ∨ c = '\t' ∨ c = '\n' ∨ c = '\x0d' ∨ c = '\x0b' ∨
        c = '\x0c' := by tauto
    have hwc : ('a' ≤ c ∧ c ≤ 'z') ∨ ('A' ≤ c ∧ c ≤ 'Z') ∨ ('0' ≤ c ∧ c ≤ '9') ∨
        c = '_' := by tauto
    rcases hc with h1 | h1 | h1 | h1 | h1 | h1 <;> subst h1 <;>
      rcases hwc with ⟨h2, _⟩ | ⟨h2, _⟩ | ⟨h2, _⟩ | h2 <;> exact absurd h2 (by decide)

/-!
## Small list lemmas
-/

theorem takeWhile_all {α : Type} (p : α → Bool) (l : List α)
    (h : ∀ c ∈ l, p c = true) : l.takeWhile p = l := by
  induction l with
  | nil => rfl
  | cons c cs ih =>
    rw [List.takeWhile_cons, if_pos (h c (List.mem_cons_self c cs))]
    rw [ih (fun d hd => h d (List.mem_cons_of_mem c hd))]

theorem dropWhile_all {α : Type} (p : α → Bool) (l : List α)
    (h : ∀ c ∈ l, p c = true) : l.dropWhile p = [] := by
  induction l with
  | nil => rfl
  | cons c cs ih =>
    rw [List.dropWhile_cons, if_pos (h c (List.mem_cons_self c cs))]
    exact ih (fun d hd => h d (List.mem_cons_of_mem c hd))

theorem dropWhile_id_of_head {α : Type} (p : α → Bool) (l : List α)
    (h : ∀ c, l.head? = some c → p c = false) : l.dropWhile p = l := by
  cases l with
  | nil => rfl
  | cons c cs =>
    rw [List.dropWhile_cons, if_neg (show ¬ p c = true by simp [h c rfl])]

theorem head?_dropWhile {α : Type} (p : α → Bool) (l : List α) (c : α)
    (h : (l.dropWhile p).head? = some c) : p c = false := by
  induction l with
  | nil => simp at h
  | cons a as ih =>
    rw [List.dropWhile_cons] at h
    split at h
    · exact ih h
    · rename_i hpa
      simp only [List.head?, Option.some.injEq] at h
      subst h
      simp only [Bool.not_eq_true] at hpa
      exact hpa

theorem head?_append_of_ne_nil {α : Type} (l m : List α) (c : α)
    (h : l.head? = some c) : (l ++ m).head? = some c := by
  cases l with
  | nil => simp at h
  | cons a as => simpa using h

theorem mem_pyStripList (l : List Char) (c : Char) (h : c ∈ pyStripList l) :
    c ∈ l := by
  unfold pyStripList at h
  rw [List.mem_reverse] at h
  have h1 := (List.dropWhile_sublist _).mem h
  rw [List.mem_reverse] at h1
  exact (List.dropWhile_sublist _).mem h1

/-!
## Fuel irrelevance for the fuel-indexed workers
-/

theorem removeNoiseWordsF_fuel (noise : List String) :
    ∀ (f1 f2 : Nat) (l : List Char), l.length ≤ f1 → l.length ≤ f2 →
      removeNoiseWordsF noise f1 l = removeNoiseWordsF noise f2 l := by
  intro f1
  induction f1 with
  | zero =>
    intro f2 l h1 _
    rw [Nat.le_zero] at h1
    rw [List.length_eq_zero] at h1
    subst h1
    cases f2 <;> rfl
  | succ g ih =>
    intro f2 l h1 h2
    cases l with
    | nil => cases f2 <;> rfl
    | cons c cs =>
      cases f2 with
      | zero => simp at h2
      | succ g2 =>
        simp only [removeNoiseWordsF]
        split
        · rename_i hword
          have hrest : (List.dropWhile isWordChar (c :: cs)).length ≤ cs.length := by
            rw [List.dropWhile_cons, if_pos hword]
            exact dropWhileLenLe isWordChar cs
          simp only [List.length_cons] at h1 h2
          rw [ih g2 (List.dropWhile isWordChar (c :: cs))
            (le_trans hrest (by omega)) (le_trans hrest (by omega))]
        · simp only [List.length_cons] at h1 h2
          rw [ih g2 cs (by omega) (by omega)]

/-- The maximal word-character runs (the regex `\b`-delimited tokens) of a
character list, fuel-indexed like `removeNoiseWordsF`. -/
def tokensF : Nat → List Char → List (List Char)
  | _, [] => []
  | 0, _ :: _ => []
  | fuel + 1, c :: cs =>
    if isWordChar c then
      List.takeWhile isWordChar (c :: cs) ::
        tokensF fuel (List.dropWhile isWordChar (c :: cs))
    else tokensF fuel cs

/-- The tokens of a character list. -/
def tokensOf (l : List Char) : List (List Char) := tokensF l.length l

theorem tokensF_fuel :
    ∀ (f1 f2 : Nat) (l : List Char), l.length ≤ f1 → l.length ≤ f2 →
      tokensF f1 l = tokensF f2 l := by
  intro f1
  induction f1 with
  | zero =>
    intro f2 l h1 _
    rw [Nat.le_zero] at h1
    rw [List.length_eq_zero] at h1
    subst h1
    cases f2 <;> rfl
  | succ g ih =>
    intro f2 l h1 h2
    cases l with
    | nil => cases f2 <;> rfl
    | cons c cs =>
      cases f2 with
      | zero => simp at h2
      | succ g2 =>
        simp only [tokensF]
        split
        · rename_i hword
          have hrest : (List.dropWhile isWordChar (c :: cs)).length ≤ cs.length := by
            rw [List.dropWhile_cons, if_pos hword]
            exact dropWhileLenLe isWordChar cs
          simp only [List.length_cons] at h1 h2
          rw [ih g2 (List.dropWhile isWordChar (c :: cs))
            (le_trans hrest (by omega)) (le_trans hrest (by omega))]
        · simp only [List.length_cons] at h1 h2
          rw [ih g2 cs (by omega) (by omega)]

/-- Unfolding `tokensOf` at a word character. -/
theorem tokensOf_cons_word (c : Char) (cs : List Char) (h : isWordChar c = true) :
    tokensOf (c :: cs) = List.takeWhile isWordChar (c :: cs) ::
      tokensOf (List.dropWhile isWordChar (c :: cs)) := by
  unfold tokensOf
  simp only [List.length_cons, tokensF, if_pos h]
  have hrest : (List.dropWhile isWordChar (c :: cs)).length ≤ cs.length := by
    rw [List.dropWhile_cons, if_pos h]
    exact dropWhileLenLe isWordChar cs
  rw [tokensF_fuel cs.length (List.dropWhile isWordChar (c :: cs)).length
    (List.dropWhile isWordChar (c :: cs)) hrest (le_refl _)]

/-- Unfolding `tokensOf` at a non-word character. -/
theorem tokensOf_cons_nonword (c : Char) (cs : List Char)
    (h : isWordChar c = false) : tokensOf (c :: cs) = tokensOf cs := by
  unfold tokensOf
  simp only [List.length_cons, tokensF]
  rw [if_neg (by simp [h])]

/-!
## Character-set and membership facts about the pipeline stages
-/

theorem mem_squashNonAlnumF : ∀ (f : Nat) (l : List Char) (c : Char),
    c ∈ squashNonAlnumF f l → isLowAlnum c = true ∨ c = ' ' := by
  intro f
  induction f with
  | zero =>
    intro l c h
    cases l <;> simp [squashNonAlnumF] at h
  | succ g ih =>
    intro l c h
    cases l with
    | nil => simp [squashNonAlnumF] at h
    | cons a as =>
      simp only [squashNonAlnumF] at h
      split at h
      · rename_i ha
        rcases List.mem_cons.mp h with h | h
        · subst h
          exact Or.inl ha
        · exact ih as c h
      · rcases List.mem_cons.mp h with h | h
        · exact Or.inr h
        · exact ih _ c h

theorem mem_removeNoiseWordsF (noise : List String) :
    ∀ (f : Nat) (l : List Char) (c : Char),
      c ∈ removeNoiseWordsF noise f l → c ∈ l := by
  intro f
  induction f with
  | zero =>
    intro l c h
    cases l <;> simp [removeNoiseWordsF] at h
  | succ g ih =>
    intro l c h
    cases l with
    | nil => simp [removeNoiseWordsF] at h
    | cons a as =>
      simp only [removeNoiseWordsF] at h
      split at h
      · rw [List.mem_append] at h
        rcases h with h | h
        · split at h
          · simp at h
          · exact (List.takeWhile_sublist _).mem h
        · exact (List.dropWhile_sublist _).mem (ih _ c h)
      · rcases List.mem_cons.mp h with h | h
        · exact h ▸ List.mem_cons_self a as
        · exact List.mem_cons_of_mem a (ih as c h)

/-- Every character of a verifier-grade canonical form is a lowercase
alphanumeric or a space. -/
theorem normalize_chars (x : String) (c : Char) (h : c ∈ (normalize x).toList) :
    isLowAlnum c = true ∨ c = ' ' := by
  by_cases hx : x.toList = []
  · unfold normalize at h
    rw [if_pos hx] at h
    simp at h
  · unfold normalize at h
    rw [if_neg hx] at h
    have h1 := mem_pyStripList _ _ h
    have h2 := mem_removeNoiseWordsF verifierNoise _ _ _ h1
    exact mem_squashNonAlnumF _ _ _ h2

/-- Every character of a resolver-grade canonical form is a lowercase
alphanumeric. -/
theorem normalize_name_chars (x : String) (c : Char)
    (h : c ∈ (normalize_name x).toList) : isLowAlnum c = true := by
  unfold normalize_name at h
  have h1 := mem_pyStripList _ _ h
  exact List.of_mem_filter h1

/-!
## Word-run decomposition lemmas
-/

theorem takeWhile_word_append (tok rest : List Char)
    (htok : ∀ c ∈ tok, isWordChar c = true)
    (hrest : ∀ c, rest.head? = some c → isWordChar c = false) :
    List.takeWhile isWordChar (tok ++ rest) = tok := by
  induction tok with
  | nil =>
    rw [List.nil_append]
    cases rest with
    | nil => rfl
    | cons d ds =>
      rw [List.takeWhile_cons, if_neg (by simp [hrest d rfl])]
  | cons a toks ih =>
    rw [List.cons_append, List.takeWhile_cons,
      if_pos (htok a (List.mem_cons_self a toks))]
    rw [ih (fun c hc => htok c (List.mem_cons_of_mem a hc))]

theorem dropWhile_word_append (tok rest : List Char)
    (htok : ∀ c ∈ tok, isWordChar c = true)
    (hrest : ∀ c, rest.head? = some c → isWordChar c = false) :
    List.dropWhile isWordChar (tok ++ rest) = rest := by
  induction tok with
  | nil =>
    rw [List.nil_append]
    exact dropWhile_id_of_head _ rest hrest
  | cons a toks ih =>
    rw [List.cons_append, List.dropWhile_cons,
      if_pos (htok a (List.mem_cons_self a toks))]
    exact ih (fun c hc => htok c (List.mem_cons_of_mem a hc))

theorem tokensOf_all_nonword (l : List Char) (h : ∀ c ∈ l, isWordChar c = false) :
    tokensOf l = [] := by
  induction l with
  | nil => rfl
  | cons c cs ih =>
    rw [tokensOf_cons_nonword c cs (h c (List.mem_cons_self c cs))]
    exact ih (fun d hd => h d (List.mem_cons_of_mem c hd))

theorem tokensOf_dropWhile_space (l : List Char) :
    tokensOf (l.dropWhile isSpaceChar) = tokensOf l := by
  induction l with
  | nil => rfl
  | cons c cs ih =>
    rw [List.dropWhile_cons]
    split
    · rename_i hsp
      rw [ih, tokensOf_cons_nonword c cs (not_word_of_space c hsp)]
    · rfl

theorem tokensOf_append_nonword_aux : ∀ (n : Nat) (l sp : List Char),
    l.length ≤ n → (∀ c ∈ sp, isWordChar c = false) →
    tokensOf (l ++ sp) = tokensOf l := by
  intro n
  induction n with
  | zero =>
    intro l sp h1 hsp
    rw [Nat.le_zero] at h1
    rw [List.length_eq_zero] at h1
    subst h1
    rw [List.nil_append]
    exact tokensOf_all_nonword sp hsp
  | succ g ih =>
    intro l sp h1 hsp
    cases l with
    | nil =>
      rw [List.nil_append]
      exact tokensOf_all_nonword sp hsp
    | cons c cs =>
      cases hw : isWordChar c with
      | false =>
        rw [List.cons_append, tokensOf_cons_nonword c _ hw,
          tokensOf_cons_nonword c cs hw]
        exact ih cs sp (by simp only [List.length_cons] at h1; omega) hsp
      | true =>
        set tok0 := List.takeWhile isWordChar (c :: cs) with htok0
        set rest0 := List.dropWhile isWordChar (c :: cs) with hrest0
        have hsplit : tok0 ++ rest0 = c :: cs :=
          List.takeWhile_append_dropWhile isWordChar (c :: cs)
        have htokall : ∀ d ∈ tok0, isWordChar d = true :=
          fun d hd => List.mem_takeWhile_imp hd
        have hresthead : ∀ d, rest0.head? = some d → isWordChar d = false :=
          fun d hd => head?_dropWhile _ _ d hd
        have hcomb : ∀ d, (rest0 ++ sp).head? = some d → isWordChar d = false := by
          intro d hd
          cases hr0 : rest0 with
          | nil =>
            rw [hr0, List.nil_append] at hd
            cases sp with
            | nil => simp at hd
            | cons e es =>
              simp only [List.head?, Option.some.injEq] at hd
              exact hd ▸ hsp e (List.mem_cons_self e es)
          | cons e es =>
            rw [hr0, List.cons_append] at hd
            simp only [List.head?, Option.some.injEq] at hd
            exact hd ▸ hresthead e (by rw [hr0]; rfl)
        have hL : (c :: cs) ++ sp = tok0 ++ (rest0 ++ sp) := by
          rw [← List.append_assoc, hsplit]
        rw [hL]
        have htw := takeWhile_word_append tok0 (rest0 ++ sp) htokall hcomb
        have hdw := dropWhile_word_append tok0 (rest0 ++ sp) htokall hcomb
        have htok0c : tok0 = c :: List.takeWhile isWordChar cs := by
          rw [htok0, List.takeWhile_cons, if_pos hw]
        rw [htok0c, List.cons_append, tokensOf_cons_word c _ hw,
          ← List.cons_append, ← htok0c, htw, hdw]
        rw [tokensOf_cons_word c cs hw, ← htok0, ← hrest0]
        congr 1
        apply ih rest0 sp _ hsp
        have hlen : rest0.length ≤ cs.length := by
          rw [hrest0, List.dropWhile_cons, if_pos hw]
          exact dropWhileLenLe isWordChar cs
        simp only [List.length_cons] at h1
        omega

theorem tokensOf_append_nonword (l sp : List Char)
    (hsp : ∀ c ∈ sp, isWordChar c = false) :
    tokensOf (l ++ sp) = tokensOf l :=
  tokensOf_append_nonword_aux l.length l sp (le_refl _) hsp

/-- Stripping whitespace from the ends does not change the token list. -/
theorem tokensOf_pyStripList (l : List Char) :
    tokensOf (pyStripList l) = tokensOf l := by
  unfold pyStripList
  set d1 := l.dropWhile isSpaceChar with hd1
  have hlead : tokensOf d1 = tokensOf l := tokensOf_dropWhile_space l
  have hsplitRev : List.takeWhile isSpaceChar d1.reverse ++
      List.dropWhile isSpaceChar d1.reverse = d1.reverse :=
    List.takeWhile_append_dropWhile isSpaceChar d1.reverse
  have hdecomp : (d1.reverse.dropWhile isSpaceChar).reverse ++
      (d1.reverse.takeWhile isSpaceChar).reverse = d1 := by
    rw [← List.reverse_append, hsplitRev, List.reverse_reverse]
  have hspaces : ∀ c ∈ (d1.reverse.takeWhile isSpaceChar).reverse,
      isWordChar c = false := by
    intro c hc
    rw [List.mem_reverse] at hc
    exact not_word_of_space c (List.mem_takeWhile_imp hc)
  calc tokensOf (d1.reverse.dropWhile isSpaceChar).reverse
      = tokensOf ((d1.reverse.dropWhile isSpaceChar).reverse ++
          (d1.reverse.takeWhile isSpaceChar).reverse) :=
        (tokensOf_append_nonword _ _ hspaces).symm
    _ = tokensOf d1 := by rw [hdecomp]
    _ = tokensOf l := hlead

/-!
## Identity lemmas: when does each pipeline stage leave its input unchanged?
-/

/-- No two consecutive spaces anywhere in the list. -/
def noTwoSpacesB : List Char → Bool
  | [] => true
  | [_] => true
  | c :: d :: rest => !(c = ' ' && d = ' ') && noTwoSpacesB (d :: rest)

theorem noTwoSpacesB_tail (c : Char) (cs : List Char)
    (h : noTwoSpacesB (c :: cs) = true) : noTwoSpacesB cs = true := by
  cases cs with
  | nil => rfl
  | cons d rest =>
    simp only [noTwoSpacesB, Bool.and_eq_true] at h
    exact h.2

theorem strMkToList (s : String) : String.mk s.toList = s := rfl

theorem head?_mem {α : Type} (l : List α) (c : α) (h : l.head? = some c) :
    c ∈ l := by
  cases l with
  | nil => simp at h
  | cons a as =>
    simp only [List.head?, Option.some.injEq] at h
    exact h ▸ List.mem_cons_self a as

theorem getLast?_mem {α : Type} (l : List α) (c : α) (h : l.getLast? = some c) :
    c ∈ l := by
  rw [← List.head?_reverse] at h
  rw [← List.mem_reverse]
  exact head?_mem _ c h

theorem removeNoiseWordsF_nil (noise : List String) (f : Nat) :
    removeNoiseWordsF noise f [] = [] := by
  cases f <;> rfl

theorem squashNonAlnumF_nil (f : Nat) : squashNonAlnumF f [] = [] := by
  cases f <;> rfl

theorem map_lowerChar_id (l : List Char)
    (h : ∀ c ∈ l, isLowAlnum c = true ∨ c = ' ') : l.map lowerChar = l := by
  induction l with
  | nil => rfl
  | cons c cs ih =>
    rw [List.map_cons, lowerChar_id c (h c (List.mem_cons_self c cs))]
    rw [ih (fun d hd => h d (List.mem_cons_of_mem c hd))]

theorem squashNonAlnumF_id : ∀ (f : Nat) (l : List Char), l.length ≤ f →
    (∀ c ∈ l, isLowAlnum c = true ∨ c = ' ') →
    noTwoSpacesB l = true →
    squashNonAlnumF f l = l := by
  intro f
  induction f with
  | zero =>
    intro l h1 _ _
    rw [Nat.le_zero] at h1
    rw [List.length_eq_zero] at h1
    subst h1
    rfl
  | succ g ih =>
    intro l h1 hchar hsp
    cases l with
    | nil => rfl
    | cons c cs =>
      simp only [squashNonAlnumF]
      by_cases hc : isLowAlnum c = true
      · rw [if_pos hc]
        congr 1
        exact ih cs (by simp only [List.length_cons] at h1; omega)
          (fun d hd => hchar d (List.mem_cons_of_mem c hd))
          (noTwoSpacesB_tail c cs hsp)
      · rw [if_neg hc]
        have hcsp : c = ' ' :=
          (hchar c (List.mem_cons_self c cs)).resolve_left hc
        subst hcsp
        cases cs with
        | nil =>
          rw [show List.dropWhile (fun d => !isLowAlnum d) ([] : List Char) = []
            from rfl, squashNonAlnumF_nil]
        | cons d rest =>
          have hd : ¬ d = ' ' := by
            intro hde
            subst hde
            simp [noTwoSpacesB] at hsp
          have hdal : isLowAlnum d = true :=
            (hchar d (List.mem_cons_of_mem _ (List.mem_cons_self d rest))).resolve_right hd
          rw [List.dropWhile_cons, if_neg (by simp [hdal])]
          congr 1
          exact ih (d :: rest) (by simp only [List.length_cons] at h1 ⊢; omega)
            (fun e he => hchar e (List.mem_cons_of_mem _ he))
            (noTwoSpacesB_tail _ _ hsp)

theorem pyStripList_id (l : List Char)
    (h1 : ∀ c, l.head? = some c → isSpaceChar c = false)
    (h2 : ∀ c, l.getLast? = some c → isSpaceChar c = false) :
    pyStripList l = l := by
  unfold pyStripList
  rw [dropWhile_id_of_head _ l h1]
  have hrev : l.reverse.dropWhile isSpaceChar = l.reverse := by
    apply dropWhile_id_of_head
    intro c hc
    rw [List.head?_reverse] at hc
    exact h2 c hc
  rw [hrev, List.reverse_reverse]

theorem pyStripList_head (m : List Char) (c : Char)
    (h : (pyStripList m).head? = some c) : isSpaceChar c = false := by
  unfold pyStripList at h
  set d1 := m.dropWhile isSpaceChar with hd1
  set d2 := d1.reverse.dropWhile isSpaceChar with hd2
  have hsuf : d2 <:+ d1.reverse := List.dropWhile_suffix _
  have hpre : d2.reverse <+: d1 := by
    have h' := List.reverse_prefix.mpr hsuf
    rwa [List.reverse_reverse] at h'
  obtain ⟨t, ht⟩ := hpre
  have hd1head : d1.head? = some c := by
    rw [← ht]
    exact head?_append_of_ne_nil _ t c h
  exact head?_dropWhile _ m c hd1head

theorem pyStripList_last (m : List Char) (c : Char)
    (h : (pyStripList m).getLast? = some c) : isSpaceChar c = false := by
  unfold pyStripList at h
  rw [List.getLast?_reverse] at h
  exact head?_dropWhile _ _ c h

theorem removeNoiseWordsF_id (noise : List String) : ∀ (f : Nat) (l : List Char),
    l.length ≤ f →
    (∀ t ∈ tokensOf l, noise.contains (String.mk (t.map lowerChar)) = false) →
    removeNoiseWordsF noise f l = l := by
  intro f
  induction f with
  | zero =>
    intro l h1 _
    rw [Nat.le_zero] at h1
    rw [List.length_eq_zero] at h1
    subst h1
    rfl
  | succ g ih =>
    intro l h1 htok
    cases l with
    | nil => rfl
    | cons c cs =>
      simp only [removeNoiseWordsF]
      cases hw : isWordChar c with
      | false =>
        rw [if_neg (by simp [hw])]
        congr 1
        apply ih cs (by simp only [List.length_cons] at h1; omega)
        intro t ht
        apply htok
        rw [tokensOf_cons_nonword c cs hw]
        exact ht
      | true =>
        rw [if_pos rfl]
        have htokmem : List.takeWhile isWordChar (c :: cs) ∈ tokensOf (c :: cs) := by
          rw [tokensOf_cons_word c cs hw]
          exact List.mem_cons_self _ _
        rw [if_neg (by rw [htok _ htokmem]; simp)]
        have hrec : removeNoiseWordsF noise g (List.dropWhile isWordChar (c :: cs)) =
            List.dropWhile isWordChar (c :: cs) := by
          apply ih
          · rw [List.dropWhile_cons, if_pos hw]
            have := dropWhileLenLe isWordChar cs
            simp only [List.length_cons] at h1
            omega
          · intro t ht
            apply htok
            rw [tokensOf_cons_word c cs hw]
            exact List.mem_cons_of_mem _ ht
        rw [hrec, List.takeWhile_append_dropWhile]

/-- Tokens surviving noise removal are exactly the non-noise tokens: every
token of the output fails the noise test. -/
theorem tokensOf_removeNoiseWordsF (noise : List String) :
    ∀ (f : Nat) (l : List Char), l.length ≤ f →
      ∀ t ∈ tokensOf (removeNoiseWordsF noise f l),
        noise.contains (String.mk (t.map lowerChar)) = false := by
  intro f
  induction f with
  | zero =>
    intro l h1 t ht
    rw [Nat.le_zero] at h1
    rw [List.length_eq_zero] at h1
    subst h1
    simp [tokensOf, tokensF] at ht
  | succ g ih =>
    intro l h1 t ht
    cases l with
    | nil => simp [removeNoiseWordsF, tokensOf, tokensF] at ht
    | cons c cs =>
      simp only [removeNoiseWordsF] at ht
      cases hw : isWordChar c with
      | false =>
        rw [if_neg (by simp [hw])] at ht
        rw [tokensOf_cons_nonword c _ hw] at ht
        exact ih cs (by simp only [List.length_cons] at h1; omega) t ht
      | true =>
        rw [if_pos hw] at ht
        have hlenrest : (List.dropWhile isWordChar (c :: cs)).length ≤ g := by
          rw [List.dropWhile_cons, if_pos hw]
          have := dropWhileLenLe isWordChar cs
          simp only [List.length_cons] at h1
          omega
        have hout' : ∀ d, (removeNoiseWordsF noise g
              (List.dropWhile isWordChar (c :: cs))).head? = some d →
            isWordChar d = false := by
          intro d hd
          cases hr : List.dropWhile isWordChar (c :: cs) with
          | nil =>
            rw [hr, removeNoiseWordsF_nil] at hd
            simp at hd
          | cons e es =>
            have he : isWordChar e = false :=
              head?_dropWhile isWordChar (c :: cs) e (by rw [hr]; rfl)
            cases g with
            | zero =>
              rw [hr] at hlenrest
              simp at hlenrest
            | succ g' =>
              rw [hr] at hd
              simp only [removeNoiseWordsF] at hd
              rw [if_neg (by simp [he])] at hd
              simp only [List.head?, Option.some.injEq] at hd
              exact hd ▸ he
        split at ht
        · rw [List.nil_append] at ht
          exact ih _ hlenrest t ht
        · rename_i hcontains
          have htokall : ∀ d ∈ List.takeWhile isWordChar (c :: cs),
              isWordChar d = true := fun d hd => List.mem_takeWhile_imp hd
          have htd : tokensOf (List.takeWhile isWordChar (c :: cs) ++
                removeNoiseWordsF noise g (List.dropWhile isWordChar (c :: cs))) =
              List.takeWhile isWordChar (c :: cs) ::
                tokensOf (removeNoiseWordsF noise g
                  (List.dropWhile isWordChar (c :: cs))) := by
            have htok0c : List.takeWhile isWordChar (c :: cs) =
                c :: List.takeWhile isWordChar cs := by
              rw [List.takeWhile_cons, if_pos hw]
            rw [htok0c, List.cons_append, tokensOf_cons_word c _ hw,
              ← List.cons_append, ← htok0c]
            rw [takeWhile_word_append _ _ htokall hout',
              dropWhile_word_append _ _ htokall hout']
          rw [htd] at ht
          rcases List.mem_cons.mp ht with h | h
          · subst h
            simp only [Bool.not_eq_true] at hcontains
            exact hcontains
          · exact ih _ hlenrest t h

/-- No token of a verifier-grade canonical form is a noise word. -/
theorem normalize_tokens_nonnoise (x : String) :
    ∀ t ∈ tokensOf (normalize x).toList,
      verifierNoise.contains (String.mk (t.map lowerChar)) = false := by
  intro t ht
  by_cases hx : x.toList = []
  · unfold normalize at ht
    rw [if_pos hx] at ht
    simp [tokensOf, tokensF] at ht
  · unfold normalize at ht
    rw [if_neg hx] at ht
    have ht' : t ∈ tokensOf (pyStripList (removeNoiseWords verifierNoise
        (squashNonAlnum (x.toList.map lowerChar)))) := ht
    rw [tokensOf_pyStripList] at ht'
    exact tokensOf_removeNoiseWordsF verifierNoise _ _ (le_refl _) t ht'

/-- The verifier-grade normalizer fixes every input whose canonical form has
no two consecutive spaces. -/
theorem normalize_idem_of_noTwoSpaces (x : String)
    (h : noTwoSpacesB (normalize x).toList = true) :
    normalize (normalize x) = normalize x := by
  by_cases hz : (normalize x).toList = []
  · have hze : normalize x = "" := (str_eq_empty_iff _).mpr hz
    rw [hze]
    rfl
  · have hxne : ¬ x.toList = [] := by
      intro hx
      apply hz
      unfold normalize
      rw [if_pos hx]
      rfl
    have hform : (normalize x).toList = pyStripList (removeNoiseWords verifierNoise
        (squashNonAlnum (x.toList.map lowerChar))) := by
      conv_lhs => rw [show normalize x = if x.toList = [] then "" else
        String.mk (pyStripList (removeNoiseWords verifierNoise
          (squashNonAlnum (x.toList.map lowerChar)))) from rfl]
      rw [if_neg hxne]
      rfl
    have hchars := normalize_chars x
    have hmap : (normalize x).toList.map lowerChar = (normalize x).toList :=
      map_lowerChar_id _ (fun c hc => hchars c hc)
    have hsquash : squashNonAlnum (normalize x).toList = (normalize x).toList := by
      unfold squashNonAlnum
      exact squashNonAlnumF_id _ _ (le_refl _) (fun c hc => hchars c hc) h
    have hnoise : removeNoiseWords verifierNoise (normalize x).toList =
        (normalize x).toList := by
      unfold removeNoiseWords
      exact removeNoiseWordsF_id verifierNoise _ _ (le_refl _)
        (normalize_tokens_nonnoise x)
    have hstrip : pyStripList (normalize x).toList = (normalize x).toList := by
      apply pyStripList_id
      · intro c hc
        rw [hform] at hc
        exact pyStripList_head _ c hc
      · intro c hc
        rw [hform] at hc
        exact pyStripList_last _ c hc
    have e1 : normalize (normalize x) =
        if (normalize x).toList = [] then ""
        else String.mk (pyStripList (removeNoiseWords verifierNoise
          (squashNonAlnum ((normalize x).toList.map lowerChar)))) := rfl
    rw [e1, if_neg hz, hmap, hsquash, hnoise, hstrip]
    exact strMkToList _

/-- The resolver-grade normalizer fixes every input whose canonical form is
not itself a noise word. -/
theorem normalize_name_idem_of_not_noise (x : String)
    (h : normalize_name x ∉ resolverNoise) :
    normalize_name (normalize_name x) = normalize_name x := by
  have hchars := normalize_name_chars x
  set z := normalize_name x with hz
  show normalize_name z = z
  have hmap : z.toList.map lowerChar = z.toList :=
    map_lowerChar_id _ (fun c hc => Or.inl (hchars c hc))
  have hnoise : removeNoiseWords resolverNoise z.toList = z.toList := by
    cases hzl : z.toList with
    | nil => rw [removeNoiseWords, removeNoiseWordsF_nil]
    | cons c cs =>
      have hall : ∀ d ∈ c :: cs, isWordChar d = true :=
        fun d hd => word_of_alnum d (hchars d (hzl ▸ hd))
      unfold removeNoiseWords
      simp only [List.length_cons, removeNoiseWordsF]
      rw [if_pos (hall c (List.mem_cons_self c cs))]
      rw [takeWhile_all _ _ hall, dropWhile_all _ _ hall]
      have hmap2 : (c :: cs).map lowerChar = c :: cs :=
        map_lowerChar_id _ (fun d hd => Or.inl (hchars d (hzl ▸ hd)))
      rw [hmap2]
      have hmk : String.mk (c :: cs) = z := by
        rw [← hzl]
        exact strMkToList z
      rw [hmk]
      have hcon : resolverNoise.contains z = false := by
        cases hcc : resolverNoise.contains z
        · rfl
        · exact absurd (List.elem_iff.mp hcc) h
      rw [if_neg (by rw [hcon]; simp), removeNoiseWordsF_nil, List.append_nil]
  have hfilter : z.toList.filter isLowAlnum = z.toList :=
    List.filter_eq_self.mpr (fun c hc => hchars c hc)
  have hstrip : pyStripList z.toList = z.toList := by
    apply pyStripList_id
    · intro c hc
      exact not_space_of_alnum c (hchars c (head?_mem _ c hc))
    · intro c hc
      exact not_space_of_alnum c (hchars c (getLast?_mem _ c hc))
  have e1 : normalize_name z = String.mk (pyStripList
      ((removeNoiseWords resolverNoise (z.toList.map lowerChar)).filter
        isLowAlnum)) := rfl
  rw [e1, hmap, hnoise, hfilter, hstrip]
  exact strMkToList z

/-- C5 counterexample: neither normalizer is idempotent.  For the verifier
normalizer, removing the noise token `official` from `"a official b"` leaves
the double space in `"a  b"`, which a second pass collapses to `"a b"`; for
the resolver normalizer, `"v e v o"` normalizes to the bare noise token
`"vevo"`, which a second pass deletes entirely. -/
theorem c5_counterexample :
    normalize (normalize "a official b") ≠ normalize "a official b" ∧
    normalize_name (normalize_name "v e v o") ≠ normalize_name "v e v o" := by
  decide

/-- C5 (amended): each normalizer is idempotent on every input whose first
pass is already a fixed point of the offending rewrite — the verifier
normalizer whenever its canonical form contains no two consecutive spaces,
and the resolver normalizer whenever its canonical form is not itself one of
the five noise words. -/
theorem c5_normalizers_conditionally_idempotent :
    (∀ x : String, noTwoSpacesB (normalize x).toList = true →
      normalize (normalize x) = normalize x) ∧
    (∀ x : String, normalize_name x ∉ resolverNoise →
      normalize_name (normalize_name x) = normalize_name x) :=
  ⟨normalize_idem_of_noTwoSpaces, normalize_name_idem_of_not_noise⟩

/-- Witness for C5 (amended) at concrete inputs. -/
theorem c5_witness :
    noTwoSpacesB (normalize "Daft Punk - Get Lucky!").toList = true ∧
    normalize (normalize "Daft Punk - Get Lucky!") =
      normalize "Daft Punk - Get Lucky!" ∧
    normalize_name "Daft Punk" ∉ resolverNoise ∧
    normalize_name (normalize_name "Daft Punk") = normalize_name "Daft Punk" :=
  ⟨by decide, c5_normalizers_conditionally_idempotent.1 "Daft Punk - Get Lucky!"
      (by decide),
    by decide, c5_normalizers_conditionally_idempotent.2 "Daft Punk" (by decide)⟩

end ArtistDB
